import Mathlib

/-!
# PhpResolver — verification of the install pipeline

A shallow embedding, in Lean 4, of the core of the PhpResolver dependency
installer (Resolver → Downloader → Extractor) together with proofs about the
claims of its specification.

Go strings are modelled as `List Char`; Go's standard-library string and path
helpers used by the source (`strings.HasPrefix`, `strings.TrimPrefix`,
`strings.Split`, `filepath.Clean`, `filepath.Join`, `filepath.Dir`) are given
executable Lean counterparts below, faithful to their documented Unix
semantics.  Fallible system calls (rename, mkdir, HTTP) are modelled by
explicit outcome parameters so that every error path of the Go source is
representable.
-/

set_option maxHeartbeats 1000000
set_option maxRecDepth 4096

abbrev GoStr := List Char

/-! ## Go string primitives -/

/-- Embeds Go `strings.HasPrefix(s, pre)`: `true` iff `s` begins with `pre`. -/
def hasPfx : GoStr → GoStr → Bool
  | _, [] => true
  | [], _ :: _ => false
  | c :: s, p :: ps => c == p && hasPfx s ps

/-- Embeds Go `strings.TrimPrefix(s, pre)`: drops `pre` when it leads `s`. -/
def trimPfx (s pre : GoStr) : GoStr :=
  if hasPfx s pre then s.drop pre.length else s

/-- Embeds Go `strings.HasSuffix(s, suf)`. -/
def hasSfx (s suf : GoStr) : Bool := suf.isSuffixOf s

/-- Embeds Go `strings.TrimSuffix(s, suf)`. -/
def trimSfx (s suf : GoStr) : GoStr :=
  if hasSfx s suf then s.take (s.length - suf.length) else s

/-- Embeds Go `strings.Contains(s, sub)`: `sub` occurs somewhere inside `s`. -/
def goContains : GoStr → GoStr → Bool
  | [], sub => sub.isEmpty
  | c :: rest, sub => hasPfx (c :: rest) sub || goContains rest sub

/-- Helper for `goSplit`: prepend a character to the first piece. -/
def consHead (c : Char) : List GoStr → List GoStr
  | [] => [[c]]
  | h :: t => (c :: h) :: t

/-- Embeds Go `strings.Split(s, "/")`: split at every `'/'`, keeping empty
pieces, exactly as Go does for a one-character separator. -/
def goSplit : GoStr → List GoStr
  | [] => [[]]
  | c :: rest => if c = '/' then [] :: goSplit rest else consHead c (goSplit rest)

theorem goSplit_ne_nil (s : GoStr) : goSplit s ≠ [] := by
  induction s with
  | nil => simp [goSplit]
  | cons c rest ih =>
    simp only [goSplit]
    split
    · simp
    · cases h : goSplit rest <;> simp [consHead]

theorem goSplit_append_slash (a b : GoStr) :
    goSplit (a ++ '/' :: b) = goSplit a ++ goSplit b := by
  induction a with
  | nil => simp [goSplit]
  | cons c rest ih =>
    show goSplit (c :: (rest ++ '/' :: b)) = goSplit (c :: rest) ++ goSplit b
    simp only [goSplit]
    by_cases hc : c = '/'
    · simp [hc, ih]
    · simp only [if_neg hc, ih]
      cases h : goSplit rest with
      | nil => exact absurd h (goSplit_ne_nil rest)
      | cons x xs => simp [consHead, h]

theorem mem_goSplit_no_slash (s : GoStr) : ∀ x ∈ goSplit s, '/' ∉ x := by
  induction s with
  | nil => simp [goSplit]
  | cons c rest ih =>
    simp only [goSplit]
    split
    · rename_i hc
      intro x hx
      rcases List.mem_cons.mp hx with h | h
      · simp [h]
      · exact ih x h
    · rename_i hc
      intro x hx
      cases hsp : goSplit rest with
      | nil => exact absurd hsp (goSplit_ne_nil rest)
      | cons y ys =>
        rw [hsp] at hx
        simp only [consHead] at hx
        rcases List.mem_cons.mp hx with h | h
        · subst h
          intro hmem
          rcases List.mem_cons.mp hmem with h' | h'
          · exact hc h'.symm
          · exact ih y (hsp ▸ List.mem_cons_self y ys) h'
        · exact ih x (hsp ▸ List.mem_cons.mpr (Or.inr h))

/-! ## The Unix lexical path algebra of Go `path/filepath`

`filepath.Clean` is modelled by the standard component-stack formulation of
its documented algorithm: split on `'/'`, drop empty and `"."` components,
let `".."` pop a preceding non-`".."` component (at the root, `".."` is
dropped; below a relative start, it accumulates), then rejoin.  The stack is
kept head-topmost (`cleanStepR` pushes at the head) and reversed at the end.
-/

/-- A path is rooted when it starts with `'/'` (Go `filepath.IsAbs` on Unix). -/
def isRooted : GoStr → Bool
  | [] => false
  | c :: _ => c == '/'

/-- The `".."` path component. -/
def ddComp : GoStr := ['.', '.']

/-- One step of the `filepath.Clean` component stack (head = topmost). -/
def cleanStepR (rooted : Bool) (acc : List GoStr) (comp : GoStr) : List GoStr :=
  if comp = [] ∨ comp = ['.'] then acc
  else if comp = ddComp then
    match acc with
    | top :: rest => if top = ddComp then comp :: top :: rest else rest
    | [] => if rooted then [] else [ddComp]
  else comp :: acc

/-- The cleaned components of a path, in order, plus its rootedness. -/
def cleanParts (p : GoStr) : Bool × List GoStr :=
  (isRooted p, ((goSplit p).foldl (cleanStepR (isRooted p)) []).reverse)

/-- Join components with `'/'` (Go `strings.Join(xs, "/")`). -/
def intercalateSlash : List GoStr → GoStr
  | [] => []
  | [x] => x
  | x :: y :: xs => x ++ '/' :: intercalateSlash (y :: xs)

/-- Rebuild the textual path from rootedness and cleaned components
(the output convention of Go `filepath.Clean`: empty result becomes
`"/"` or `"."`). -/
def renderParts (rooted : Bool) (st : List GoStr) : GoStr :=
  if st = [] then (if rooted then ['/'] else ['.'])
  else (if rooted then ['/'] else []) ++ intercalateSlash st

/-- Embeds Go `filepath.Clean` (Unix). -/
def goClean (p : GoStr) : GoStr :=
  renderParts (cleanParts p).1 (cleanParts p).2

/-- Embeds Go `filepath.Join(elem...)`: skip leading empty elements, join the
rest (later empties included) with `'/'`, and `Clean` the result; all-empty
input yields the empty string. -/
def goJoinList : List GoStr → GoStr
  | [] => []
  | e :: rest => if e = [] then goJoinList rest else goClean (intercalateSlash (e :: rest))

/-- Embeds Go `filepath.Dir` (Unix): everything up to and including the final
`'/'`, then `Clean`; a slash-free path gives `"."`. -/
def goDirOf (p : GoStr) : GoStr :=
  goClean (p.take (p.length - (p.reverse.takeWhile (fun c => c ≠ '/')).length))

/-! ## Invariants of cleaned component stacks -/

/-- A well-formed cleaned path component: nonempty, slash-free, not `"."`. -/
def goodComp (x : GoStr) : Prop := x ≠ [] ∧ '/' ∉ x ∧ x ≠ ['.']

/-- Every element equals `".."`. -/
def allDD (xs : List GoStr) : Prop := ∀ x ∈ xs, x = ddComp

/-- All `".."` components sit at the front of the list. -/
def ddFront : List GoStr → Prop
  | [] => True
  | x :: xs => if x = ddComp then ddFront xs else ddComp ∉ xs

/-- The shape invariant of `filepath.Clean` output components. -/
def StackOK (r : Bool) (st : List GoStr) : Prop :=
  (∀ x ∈ st, goodComp x) ∧ ddFront st ∧ (r = true → ddComp ∉ st)

theorem allDD_ddFront {xs : List GoStr} (h : allDD xs) : ddFront xs := by
  induction xs with
  | nil => trivial
  | cons x xs ih =>
    have hx : x = ddComp := h x (List.mem_cons_self x xs)
    simp only [ddFront, if_pos hx]
    exact ih (fun y hy => h y (List.mem_cons.mpr (Or.inr hy)))

theorem ddFront_push_nondd {xs : List GoStr} {c : GoStr} (h : ddFront xs)
    (hc : c ≠ ddComp) : ddFront (xs ++ [c]) := by
  induction xs with
  | nil => simp [ddFront, hc]
  | cons x xs ih =>
    simp only [ddFront, List.cons_append] at h ⊢
    by_cases hx : x = ddComp
    · simp only [if_pos hx] at h ⊢
      exact ih h
    · simp only [if_neg hx] at h ⊢
      intro hmem
      rcases List.mem_append.mp hmem with hmem | hmem
      · exact h hmem
      · exact hc (List.mem_singleton.mp hmem).symm

theorem ddFront_pop {xs : List GoStr} {c : GoStr} (h : ddFront (xs ++ [c])) :
    ddFront xs := by
  induction xs with
  | nil => trivial
  | cons x xs ih =>
    simp only [ddFront, List.cons_append] at h ⊢
    by_cases hx : x = ddComp
    · simp only [if_pos hx] at h ⊢
      exact ih h
    · simp only [if_neg hx] at h ⊢
      intro hmem
      exact h (List.mem_append.mpr (Or.inl hmem))

theorem ddFront_last_dd {xs : List GoStr} (h : ddFront (xs ++ [ddComp])) :
    allDD xs := by
  induction xs with
  | nil => intro x hx; cases hx
  | cons x xs ih =>
    simp only [ddFront, List.cons_append] at h
    by_cases hx : x = ddComp
    · simp only [if_pos hx] at h
      intro y hy
      rcases List.mem_cons.mp hy with rfl | hy
      · exact hx
      · exact ih h y hy
    · simp only [if_neg hx] at h
      exact absurd (List.mem_append.mpr (Or.inr (List.mem_singleton.mpr rfl))) h

/-- Case equations for `cleanStepR`. -/
theorem cleanStepR_skip {r : Bool} {acc : List GoStr} {comp : GoStr}
    (h : comp = [] ∨ comp = ['.']) : cleanStepR r acc comp = acc := by
  simp [cleanStepR, h]

theorem cleanStepR_push {r : Bool} {acc : List GoStr} {comp : GoStr}
    (h1 : ¬(comp = [] ∨ comp = ['.'])) (h2 : comp ≠ ddComp) :
    cleanStepR r acc comp = comp :: acc := by
  simp [cleanStepR, h1, h2]

theorem cleanStepR_dd_nil_rooted : cleanStepR true [] ddComp = [] := by
  simp [cleanStepR, ddComp]

theorem cleanStepR_dd_nil_unrooted : cleanStepR false [] ddComp = [ddComp] := by
  simp [cleanStepR, ddComp]

theorem cleanStepR_dd_top_dd {r : Bool} {rest : List GoStr} :
    cleanStepR r (ddComp :: rest) ddComp = ddComp :: ddComp :: rest := by
  simp [cleanStepR, ddComp]

theorem cleanStepR_dd_pop {r : Bool} {top : GoStr} {rest : List GoStr}
    (h : top ≠ ddComp) : cleanStepR r (top :: rest) ddComp = rest := by
  have hne : ¬(ddComp = [] ∨ ddComp = ['.']) := by decide
  simp only [cleanStepR, if_neg hne, if_pos rfl]
  rw [if_neg h]
  simp

/-- The fold invariant of the `Clean` stack (head-topmost representation). -/
def StackInv (r : Bool) (acc : List GoStr) : Prop :=
  (∀ x ∈ acc, goodComp x) ∧ ddFront acc.reverse ∧ (r = true → ddComp ∉ acc)

theorem stackInv_step {r : Bool} {acc : List GoStr} {comp : GoStr}
    (h : StackInv r acc) (hc : '/' ∉ comp) : StackInv r (cleanStepR r acc comp) := by
  obtain ⟨hgood, hfront, hroot⟩ := h
  by_cases h1 : comp = [] ∨ comp = ['.']
  · rw [cleanStepR_skip h1]; exact ⟨hgood, hfront, hroot⟩
  by_cases h2 : comp = ddComp
  · subst h2
    cases acc with
    | nil =>
      cases r with
      | true => rw [cleanStepR_dd_nil_rooted]; exact ⟨hgood, hfront, hroot⟩
      | false =>
        rw [cleanStepR_dd_nil_unrooted]
        refine ⟨?_, ?_, ?_⟩
        · intro x hx
          rw [List.mem_singleton] at hx
          subst hx
          exact ⟨by decide, by decide, by decide⟩
        · simp [ddFront]
        · intro hr; cases hr
    | cons top rest =>
      by_cases ht : top = ddComp
      · subst ht
        rw [cleanStepR_dd_top_dd]
        have hall : allDD rest.reverse := by
          have heq : (ddComp :: rest).reverse = rest.reverse ++ [ddComp] := by simp
          rw [heq] at hfront
          exact ddFront_last_dd hfront
        refine ⟨?_, ?_, ?_⟩
        · intro x hx
          rcases List.mem_cons.mp hx with rfl | hx
          · exact ⟨by decide, by decide, by decide⟩
          · exact hgood x hx
        · refine allDD_ddFront ?_
          intro y hy
          simp only [List.reverse_cons, List.mem_append, List.mem_singleton] at hy
          rcases hy with (hy | hy) | hy
          · exact hall y hy
          · simpa using hy
          · simpa using hy
        · intro hr
          exact absurd (List.mem_cons_self ddComp rest) (hroot hr)
      · rw [cleanStepR_dd_pop ht]
        refine ⟨?_, ?_, ?_⟩
        · intro x hx
          exact hgood x (List.mem_cons.mpr (Or.inr hx))
        · have heq : (top :: rest).reverse = rest.reverse ++ [top] := by simp
          rw [heq] at hfront
          exact ddFront_pop hfront
        · intro hr hmem
          exact hroot hr (List.mem_cons.mpr (Or.inr hmem))
  · rw [cleanStepR_push h1 h2]
    push_neg at h1
    refine ⟨?_, ?_, ?_⟩
    · intro x hx
      rcases List.mem_cons.mp hx with rfl | hx
      · exact ⟨h1.1, hc, h1.2⟩
      · exact hgood x hx
    · simpa using ddFront_push_nondd hfront h2
    · intro hr hmem
      rcases List.mem_cons.mp hmem with rfl | hmem
      · exact h2 rfl
      · exact hroot hr hmem

theorem stackInv_foldl {r : Bool} (comps : List GoStr) (acc : List GoStr)
    (hacc : StackInv r acc) (hc : ∀ c ∈ comps, '/' ∉ c) :
    StackInv r (comps.foldl (cleanStepR r) acc) := by
  induction comps generalizing acc with
  | nil => exact hacc
  | cons c cs ih =>
    rw [List.foldl_cons]
    exact ih (cleanStepR r acc c) (stackInv_step hacc (hc c (List.mem_cons_self c cs)))
      (fun x hx => hc x (List.mem_cons.mpr (Or.inr hx)))

/-- The output of `filepath.Clean` satisfies the component-shape invariant. -/
theorem cleanParts_ok (p : GoStr) : StackOK (cleanParts p).1 (cleanParts p).2 := by
  have hinv : StackInv (isRooted p) ((goSplit p).foldl (cleanStepR (isRooted p)) []) :=
    stackInv_foldl (goSplit p) [] ⟨(by intro x hx; cases hx), trivial, (by intro _; simp)⟩
      (mem_goSplit_no_slash p)
  obtain ⟨hgood, hfront, hroot⟩ := hinv
  refine ⟨?_, ?_, ?_⟩
  · intro x hx
    exact hgood x (List.mem_reverse.mp hx)
  · exact hfront
  · intro hr hmem
    exact hroot hr (List.mem_reverse.mp hmem)

theorem ddFront_mid {done rest : List GoStr} (h : ddFront (done ++ ddComp :: rest)) :
    allDD done := by
  induction done with
  | nil => intro x hx; cases hx
  | cons d ds ih =>
    simp only [List.cons_append, ddFront] at h
    by_cases hd : d = ddComp
    · simp only [if_pos hd] at h
      intro y hy
      rcases List.mem_cons.mp hy with rfl | hy
      · exact hd
      · exact ih h y hy
    · simp only [if_neg hd] at h
      exact absurd (List.mem_append.mpr (Or.inr (List.mem_cons_self _ _))) h

/-- Feeding an already-clean component list through the `Clean` stack is the
identity (up to reversal): the list satisfies its own shape invariant, so no
component is dropped or popped. -/
theorem foldl_clean_of_ok {r : Bool} :
    ∀ (rest done : List GoStr),
      (∀ x ∈ done ++ rest, goodComp x) → ddFront (done ++ rest) →
      (r = true → ddComp ∉ done ++ rest) →
      List.foldl (cleanStepR r) done.reverse rest = (done ++ rest).reverse := by
  intro rest
  induction rest with
  | nil => intro done _ _ _; simp
  | cons c rest ih =>
    intro done hgood hfront hroot
    have hcg : goodComp c := hgood c (by simp)
    have hstep : cleanStepR r done.reverse c = c :: done.reverse := by
      by_cases hc2 : c = ddComp
      · subst hc2
        have hall : allDD done := ddFront_mid hfront
        cases hdone : done with
        | nil =>
          have hrf : r = false := by
            cases hr : r
            · rfl
            · exact absurd (show ddComp ∈ done ++ ddComp :: rest by simp) (hroot hr)
          subst hdone
          rw [hrf]
          exact cleanStepR_dd_nil_unrooted
        | cons d ds =>
          subst hdone
          have hne : (d :: ds).reverse ≠ [] := by simp
          obtain ⟨top, rr, hrev⟩ := List.exists_cons_of_ne_nil hne
          have htop : top ∈ d :: ds := by
            rw [← List.mem_reverse, hrev]
            exact List.mem_cons_self _ _
          have htopdd : top = ddComp := hall top htop
          rw [hrev, htopdd, cleanStepR_dd_top_dd]
      · have h1 : ¬(c = [] ∨ c = ['.']) := by
          rintro (h | h)
          · exact hcg.1 h
          · exact hcg.2.2 h
        exact cleanStepR_push h1 hc2
    have heq : (done ++ [c]) ++ rest = done ++ c :: rest := by simp
    calc List.foldl (cleanStepR r) done.reverse (c :: rest)
        = List.foldl (cleanStepR r) (c :: done.reverse) rest := by
          rw [List.foldl_cons, hstep]
      _ = List.foldl (cleanStepR r) (done ++ [c]).reverse rest := by simp
      _ = ((done ++ [c]) ++ rest).reverse := by
          refine ih (done ++ [c]) ?_ ?_ ?_
          · rw [heq]; exact hgood
          · rw [heq]; exact hfront
          · rw [heq]; exact hroot
      _ = (done ++ c :: rest).reverse := by rw [heq]

/-! ## Cleaning is the identity on rendered clean paths -/

theorem goSplit_no_slash {x : GoStr} (h : '/' ∉ x) : goSplit x = [x] := by
  induction x with
  | nil => rfl
  | cons c rest ih =>
    have hc : c ≠ '/' := fun hc => h (hc ▸ List.mem_cons_self c rest)
    have hr : '/' ∉ rest := fun hm => h (List.mem_cons.mpr (Or.inr hm))
    simp [goSplit, hc, ih hr, consHead]

theorem intercalateSlash_cons (x : GoStr) (xs : List GoStr) :
    intercalateSlash (x :: xs) =
      x ++ (if xs = [] then [] else '/' :: intercalateSlash xs) := by
  cases xs with
  | nil => simp [intercalateSlash]
  | cons y ys => simp [intercalateSlash]

theorem goSplit_inter {st : List GoStr} (h : ∀ x ∈ st, '/' ∉ x) (hne : st ≠ []) :
    goSplit (intercalateSlash st) = st := by
  induction st with
  | nil => exact absurd rfl hne
  | cons x xs ih =>
    cases xs with
    | nil =>
      show goSplit (intercalateSlash [x]) = [x]
      exact goSplit_no_slash (h x (List.mem_cons_self x []))
    | cons y ys =>
      show goSplit (x ++ '/' :: intercalateSlash (y :: ys)) = x :: y :: ys
      rw [goSplit_append_slash, goSplit_no_slash (h x (List.mem_cons_self _ _)),
        ih (fun z hz => h z (List.mem_cons.mpr (Or.inr hz))) (by simp)]
      rfl

theorem isRooted_append {x : GoStr} (t : GoStr) (hx : x ≠ []) (h : '/' ∉ x) :
    isRooted (x ++ t) = false := by
  cases x with
  | nil => exact absurd rfl hx
  | cons c rest =>
    have hc : c ≠ '/' := fun hc => h (hc ▸ List.mem_cons_self c rest)
    simp [isRooted, hc]

/-- `filepath.Clean` is the identity on rendered clean component stacks:
decomposing `renderParts r st` recovers exactly `(r, st)`. -/
theorem cleanParts_render {r : Bool} {st : List GoStr} (hok : StackOK r st) :
    cleanParts (renderParts r st) = (r, st) := by
  obtain ⟨hgood, hfront, hroot⟩ := hok
  cases hst : st with
  | nil =>
    subst hst
    cases r with
    | false => rfl
    | true => rfl
  | cons x xs =>
    subst hst
    have hxne : x ≠ [] := (hgood x (List.mem_cons_self _ _)).1
    have hxsl : '/' ∉ x := (hgood x (List.mem_cons_self _ _)).2.1
    have hsplit : goSplit (intercalateSlash (x :: xs)) = x :: xs :=
      goSplit_inter (fun z hz => (hgood z hz).2.1) (by simp)
    have hfold : List.foldl (cleanStepR r) ([] : List GoStr).reverse (x :: xs)
        = (([] : List GoStr) ++ x :: xs).reverse :=
      foldl_clean_of_ok (x :: xs) [] (by simpa using hgood) (by simpa using hfront)
        (by simpa using hroot)
    simp only [List.reverse_nil, List.nil_append] at hfold
    cases r with
    | false =>
      have hrender : renderParts false (x :: xs) = intercalateSlash (x :: xs) := by
        simp [renderParts]
      rw [hrender]
      have hroot2 : isRooted (intercalateSlash (x :: xs)) = false := by
        rw [intercalateSlash_cons]
        rcases List.exists_cons_of_ne_nil hxne with ⟨c, rest, rfl⟩
        exact isRooted_append _ (by simp) hxsl
      unfold cleanParts
      rw [hroot2, hsplit, hfold]
      simp
    | true =>
      have hrender : renderParts true (x :: xs) = '/' :: intercalateSlash (x :: xs) := by
        simp [renderParts]
      rw [hrender]
      have hroot2 : isRooted ('/' :: intercalateSlash (x :: xs)) = true := by
        simp [isRooted]
      have hsplit2 : goSplit ('/' :: intercalateSlash (x :: xs))
          = [] :: (x :: xs) := by
        simp [goSplit, hsplit]
      unfold cleanParts
      rw [hroot2, hsplit2]
      have hskip : List.foldl (cleanStepR true) [] ([] :: x :: xs)
          = List.foldl (cleanStepR true) [] (x :: xs) := by
        rw [List.foldl_cons, cleanStepR_skip (Or.inl rfl)]
      rw [hskip, hfold]
      simp

/-! ## String prefixes versus component prefixes -/

theorem hasPfx_iff {s p : GoStr} : hasPfx s p = true ↔ p <+: s := by
  induction p generalizing s with
  | nil =>
    simp only [hasPfx]
    exact ⟨fun _ => ⟨s, rfl⟩, fun _ => trivial⟩
  | cons ph pt ih =>
    cases s with
    | nil =>
      simp only [hasPfx]
      constructor
      · intro h; cases h
      · rintro ⟨t, ht⟩; cases ht
    | cons c cs =>
      simp only [hasPfx, Bool.and_eq_true, beq_iff_eq]
      constructor
      · rintro ⟨rfl, h⟩
        obtain ⟨t, ht⟩ := ih.mp h
        exact ⟨t, by rw [List.cons_append, ht]⟩
      · rintro ⟨t, ht⟩
        injection ht with h1 h2
        exact ⟨h1.symm, ih.mpr ⟨t, h2⟩⟩

theorem cons_pfx_cons {α : Type} {a b : α} {l₁ l₂ : List α} :
    a :: l₁ <+: b :: l₂ ↔ a = b ∧ l₁ <+: l₂ := by
  constructor
  · rintro ⟨t, ht⟩
    injection ht with h1 h2
    exact ⟨h1, t, h2⟩
  · rintro ⟨rfl, t, ht⟩
    exact ⟨t, by rw [List.cons_append, ht]⟩

theorem pfx_len {α : Type} {l₁ l₂ : List α} (h : l₁ <+: l₂) :
    l₁.length ≤ l₂.length := by
  obtain ⟨t, rfl⟩ := h
  simp

/-- Each component followed by a slash, concatenated. -/
def flatSlash : List GoStr → GoStr
  | [] => []
  | x :: xs => x ++ '/' :: flatSlash xs

theorem flat_eq_inter {xs : List GoStr} (h : xs ≠ []) :
    flatSlash xs = intercalateSlash xs ++ ['/'] := by
  induction xs with
  | nil => exact absurd rfl h
  | cons x ys ih =>
    cases ys with
    | nil => simp [flatSlash, intercalateSlash]
    | cons y zs =>
      show x ++ '/' :: flatSlash (y :: zs) = intercalateSlash (x :: y :: zs) ++ ['/']
      rw [ih (by simp)]
      simp [intercalateSlash]

theorem inter_append {base tail : List GoStr} (hb : base ≠ []) (ht : tail ≠ []) :
    intercalateSlash (base ++ tail) =
      intercalateSlash base ++ '/' :: intercalateSlash tail := by
  induction base with
  | nil => exact absurd rfl hb
  | cons x ys ih =>
    cases ys with
    | nil =>
      cases tail with
      | nil => exact absurd rfl ht
      | cons t ts => simp [intercalateSlash]
    | cons y zs =>
      have : (x :: y :: zs) ++ tail = x :: ((y :: zs) ++ tail) := by simp
      rw [this]
      cases htl : (y :: zs) ++ tail with
      | nil => simp at htl
      | cons w ws =>
        rw [← htl]
        show x ++ '/' :: intercalateSlash ((y :: zs) ++ tail) = _
        rw [ih (by simp)]
        simp [intercalateSlash]

/-- Splitting off one leading component of a prefix relation between
slash-joined component lists. -/
theorem chomp {b f t1 t2 : GoStr} (hb : '/' ∉ b) (hf : '/' ∉ f)
    (ht : t2 = [] ∨ ∃ u, t2 = '/' :: u)
    (h : b ++ '/' :: t1 <+: f ++ t2) : b = f ∧ '/' :: t1 <+: t2 := by
  induction b generalizing f with
  | nil =>
    cases f with
    | nil =>
      simp only [List.nil_append] at h
      exact ⟨rfl, h⟩
    | cons fc fs =>
      exfalso
      rw [List.nil_append, List.cons_append] at h
      obtain ⟨rfl, _⟩ := cons_pfx_cons.mp h
      exact hf (List.mem_cons_self _ _)
  | cons bc bs ih =>
    cases f with
    | nil =>
      exfalso
      rw [List.nil_append] at h
      rcases ht with rfl | ⟨u, rfl⟩
      · exact absurd (pfx_len h) (by simp)
      · rw [List.cons_append] at h
        obtain ⟨rfl, _⟩ := cons_pfx_cons.mp h
        exact hb (List.mem_cons_self _ _)
    | cons fc fs =>
      rw [List.cons_append, List.cons_append] at h
      obtain ⟨rfl, h2⟩ := cons_pfx_cons.mp h
      obtain ⟨rfl, h3⟩ := ih (fun hm => hb (List.mem_cons.mpr (Or.inr hm)))
        (fun hm => hf (List.mem_cons.mpr (Or.inr hm))) h2
      exact ⟨rfl, h3⟩

theorem flat_pfx : ∀ (base full : List GoStr),
    (∀ x ∈ base, '/' ∉ x) → (∀ x ∈ full, '/' ∉ x) →
    flatSlash base <+: intercalateSlash full → base <+: full := by
  intro base
  induction base with
  | nil => intro full _ _ _; exact ⟨full, rfl⟩
  | cons b bs ih =>
    intro full hb hf h
    cases full with
    | nil =>
      exfalso
      obtain ⟨t, htt⟩ := h
      simp [flatSlash, intercalateSlash] at htt
    | cons f fs =>
      rw [show flatSlash (b :: bs) = b ++ '/' :: flatSlash bs from rfl,
        intercalateSlash_cons] at h
      have ht2 : (if fs = [] then ([] : GoStr) else '/' :: intercalateSlash fs) = []
          ∨ ∃ u, (if fs = [] then ([] : GoStr) else '/' :: intercalateSlash fs)
            = '/' :: u := by
        split
        · exact Or.inl rfl
        · exact Or.inr ⟨_, rfl⟩
      obtain ⟨rfl, htail⟩ := chomp (hb b (List.mem_cons_self _ _))
        (hf f (List.mem_cons_self _ _)) ht2 h
      refine cons_pfx_cons.mpr ⟨rfl, ?_⟩
      cases fs with
      | nil =>
        exfalso
        simp only [if_pos rfl] at htail
        exact absurd (pfx_len htail) (by simp)
      | cons f2 fs2 =>
        simp only [if_neg (by simp : ¬(f2 :: fs2 = []))] at htail
        exact ih (f2 :: fs2) (fun x hx => hb x (List.mem_cons.mpr (Or.inr hx)))
          (fun x hx => hf x (List.mem_cons.mpr (Or.inr hx)))
          (cons_pfx_cons.mp htail).2

/-- Hard direction: if the rendered base path plus a slash is a string prefix
of the rendered full path, the base components are a prefix of the full
components. -/
theorem render_pfx_stacks {r : Bool} {base full : List GoStr}
    (hbok : ∀ x ∈ base, goodComp x) (hfok : ∀ x ∈ full, goodComp x)
    (h : hasPfx (renderParts r full) (renderParts r base ++ ['/']) = true) :
    base <+: full := by
  cases base with
  | nil => exact ⟨full, rfl⟩
  | cons b bs =>
    rw [hasPfx_iff] at h
    have hrb : renderParts r (b :: bs)
        = (if r then ['/'] else []) ++ intercalateSlash (b :: bs) := by
      simp [renderParts]
    cases full with
    | nil =>
      exfalso
      have hlen := pfx_len h
      have hbne : b ≠ [] := (hbok b (List.mem_cons_self _ _)).1
      rcases List.exists_cons_of_ne_nil hbne with ⟨c, brest, rfl⟩
      rw [hrb, intercalateSlash_cons] at hlen
      cases r <;> simp [renderParts] at hlen
    | cons f fs =>
      have hrf : renderParts r (f :: fs)
          = (if r then ['/'] else []) ++ intercalateSlash (f :: fs) := by
        simp [renderParts]
      rw [hrb, hrf] at h
      have h2 : intercalateSlash (b :: bs) ++ ['/'] <+: intercalateSlash (f :: fs) := by
        obtain ⟨t, ht⟩ := h
        refine ⟨t, ?_⟩
        cases r with
        | false => simpa using ht
        | true =>
          simp only [if_pos rfl, List.cons_append, List.append_assoc,
            List.nil_append] at ht ⊢
          injection ht
      rw [← flat_eq_inter (by simp)] at h2
      exact flat_pfx (b :: bs) (f :: fs) (fun x hx => (hbok x hx).2.1)
        (fun x hx => (hfok x hx).2.1) h2

/-- Easy direction: a strict component extension renders to a strict string
extension across a slash. -/
theorem stack_strict_render_pfx {r : Bool} {base st : List GoStr}
    (hbne : base ≠ []) (h : base <+: st) (hne : base ≠ st) :
    hasPfx (renderParts r st) (renderParts r base ++ ['/']) = true := by
  obtain ⟨t, rfl⟩ := h
  cases t with
  | nil => exact absurd (by simp) hne
  | cons u us =>
    rw [hasPfx_iff]
    have hinter : intercalateSlash (base ++ u :: us)
        = intercalateSlash base ++ '/' :: intercalateSlash (u :: us) :=
      inter_append hbne (by simp)
    have hrb : renderParts r base
        = (if r then ['/'] else []) ++ intercalateSlash base := by
      cases base with
      | nil => exact absurd rfl hbne
      | cons x xs => simp [renderParts]
    have hrs : renderParts r (base ++ u :: us)
        = (if r then ['/'] else []) ++ intercalateSlash (base ++ u :: us) := by
      cases hb2 : base ++ u :: us with
      | nil => simp at hb2
      | cons w ws => rw [← hb2]; simp [renderParts, hb2]
    refine ⟨intercalateSlash (u :: us), ?_⟩
    rw [hrb, hrs, hinter]
    simp

/-! ## `filepath.Dir` on rendered clean paths -/

theorem takeWhile_all_ne {u : GoStr} (h : ∀ x ∈ u, x ≠ '/') :
    u.takeWhile (fun c => c ≠ '/') = u := by
  induction u with
  | nil => rfl
  | cons c u ih =>
    rw [List.takeWhile_cons]
    simp only [decide_eq_true_eq]
    rw [if_pos (h c (List.mem_cons_self _ _))]
    rw [ih (fun x hx => h x (List.mem_cons.mpr (Or.inr hx)))]

theorem takeWhile_stop {u v : GoStr} (h : ∀ x ∈ u, x ≠ '/') :
    (u ++ '/' :: v).takeWhile (fun c => c ≠ '/') = u := by
  induction u with
  | nil => simp [List.takeWhile_cons]
  | cons c u ih =>
    rw [List.cons_append, List.takeWhile_cons]
    simp only [decide_eq_true_eq]
    rw [if_pos (h c (List.mem_cons_self _ _))]
    rw [ih (fun x hx => h x (List.mem_cons.mpr (Or.inr hx)))]

theorem dir_strip {a b : GoStr} (hb : '/' ∉ b) :
    goDirOf (a ++ '/' :: b) = goClean (a ++ ['/']) := by
  unfold goDirOf
  have hrev : (a ++ '/' :: b).reverse = b.reverse ++ '/' :: a.reverse := by
    simp
  rw [hrev, takeWhile_stop (fun x hx => fun he => hb (he ▸ List.mem_reverse.mp hx))]
  have hlen : (a ++ '/' :: b).length - b.reverse.length = a.length + 1 := by
    simp; omega
  rw [hlen]
  congr 1
  rw [List.take_append_eq_append_take]
  have h1 : List.take (a.length + 1) a = a := List.take_of_length_le (by omega)
  have h2 : a.length + 1 - a.length = 1 := by omega
  rw [h1, h2]
  rfl

theorem dir_noslash {p : GoStr} (hp : '/' ∉ p) : goDirOf p = ['.'] := by
  unfold goDirOf
  rw [takeWhile_all_ne (fun x hx => fun he => hp (he ▸ List.mem_reverse.mp hx))]
  simp only [List.length_reverse, Nat.sub_self, List.take_zero]
  decide

theorem isRooted_render {r : Bool} {st : List GoStr}
    (hok : ∀ x ∈ st, goodComp x) : isRooted (renderParts r st) = r := by
  cases st with
  | nil => cases r <;> rfl
  | cons x xs =>
    have hgx := hok x (List.mem_cons_self _ _)
    cases r with
    | true => simp [renderParts, isRooted]
    | false =>
      have : renderParts false (x :: xs) = intercalateSlash (x :: xs) := by
        simp [renderParts]
      rw [this, intercalateSlash_cons]
      rcases List.exists_cons_of_ne_nil hgx.1 with ⟨c, rest, hxeq⟩
      rw [hxeq]
      exact isRooted_append _ (by simp) (hxeq ▸ hgx.2.1)

/-- Cleaning a rendered clean path with a trailing slash recovers the path. -/
theorem clean_render_slash {r : Bool} {st : List GoStr} (hok : StackOK r st) :
    goClean (renderParts r st ++ ['/']) = renderParts r st := by
  have hparts : cleanParts (renderParts r st ++ ['/']) = cleanParts (renderParts r st) := by
    unfold cleanParts
    have hsp : goSplit (renderParts r st ++ ['/'])
        = goSplit (renderParts r st) ++ [[]] := by
      have : renderParts r st ++ ['/'] = renderParts r st ++ '/' :: [] := rfl
      rw [this, goSplit_append_slash]
      rfl
    have hro : isRooted (renderParts r st ++ ['/']) = isRooted (renderParts r st) := by
      have hne : renderParts r st ≠ [] := by
        unfold renderParts
        split
        · split <;> simp
        · rename_i hst
          rcases List.exists_cons_of_ne_nil hst with ⟨x, xs, rfl⟩
          rw [intercalateSlash_cons]
          rcases hx : x with _ | ⟨c, cs⟩
          · have := (hok.1 x (List.mem_cons_self _ _)).1
            rw [hx] at this
            exact absurd rfl this
          · cases r <;> simp
      rcases List.exists_cons_of_ne_nil hne with ⟨c, cs, heq⟩
      rw [heq]
      simp [isRooted]
    rw [hsp, hro, List.foldl_append]
    rw [show List.foldl (cleanStepR (isRooted (renderParts r st)))
        (List.foldl (cleanStepR (isRooted (renderParts r st))) [] (goSplit (renderParts r st)))
        [[]] = List.foldl (cleanStepR (isRooted (renderParts r st)))
        (List.foldl (cleanStepR (isRooted (renderParts r st))) [] (goSplit (renderParts r st)))
        [[]] from rfl]
    simp [List.foldl_cons, cleanStepR_skip (Or.inl rfl)]
  unfold goClean
  rw [hparts, cleanParts_render hok]

/-- `filepath.Dir` drops the final component of a rendered clean path. -/
theorem dirOf_render {r : Bool} {st : List GoStr} (hok : StackOK r st)
    (hne : st ≠ []) : goDirOf (renderParts r st) = renderParts r st.dropLast := by
  obtain ⟨xs, y, heq⟩ := (List.eq_nil_or_concat st).resolve_left hne
  rw [List.concat_eq_append] at heq
  subst heq
  obtain ⟨hgood, hfront, hroot⟩ := hok
  have hygood : goodComp y := hgood y (by simp)
  have hxsok : StackOK r xs :=
    ⟨fun x hx => hgood x (by simp [hx]), ddFront_pop hfront,
      fun hr hm => hroot hr (by simp [hm])⟩
  have hdrop : (xs ++ [y]).dropLast = xs := by simp
  rw [hdrop]
  cases hxs : xs with
  | nil =>
    subst hxs
    cases r with
    | false =>
      have hr1 : renderParts false ([] ++ [y]) = y := by
        simp [renderParts, intercalateSlash]
      rw [hr1, dir_noslash hygood.2.1]
      rfl
    | true =>
      have hr1 : renderParts true ([] ++ [y]) = [] ++ '/' :: y := by
        simp [renderParts, intercalateSlash]
      rw [hr1, dir_strip hygood.2.1]
      rfl
  | cons x xrest =>
    have hxsne : xs ≠ [] := by rw [hxs]; simp
    rw [← hxs]
    have hr1 : renderParts r (xs ++ [y]) = renderParts r xs ++ '/' :: y := by
      have h1 : intercalateSlash (xs ++ [y])
          = intercalateSlash xs ++ '/' :: intercalateSlash [y] :=
        inter_append hxsne (by simp)
      have h2 : intercalateSlash [y] = y := rfl
      have hne2 : xs ++ [y] ≠ [] := by simp
      have hr2 : renderParts r (xs ++ [y])
          = (if r then ['/'] else []) ++ intercalateSlash (xs ++ [y]) := by
        simp [renderParts, hne2]
      have hr3 : renderParts r xs
          = (if r then ['/'] else []) ++ intercalateSlash xs := by
        simp [renderParts, hxsne]
      rw [hr2, h1, h2, hr3]
      simp
    rw [hr1, dir_strip hygood.2.1]
    exact clean_render_slash hxsok

/-! ## Escaping and containment of joined paths -/

/-- The raw (pre-`Clean`) string that `filepath.Join(destDir, rel)` cleans. -/
def rawJoin (a b : GoStr) : GoStr := if a = [] then b else a ++ '/' :: b

/-- The joined destination path, after common-prefix stripping, resolves
outside the extraction directory: the cleaned components of the directory are
not a prefix of the cleaned components of the joined path.  This is the
lexical meaning of a "zip-slip" escape. -/
def escapesDir (destDir rel : GoStr) : Prop :=
  ¬ ((cleanParts destDir).2 <+: (cleanParts (rawJoin destDir rel)).2)

/-- A path equals the cleaned directory or sits strictly below it. -/
def insideOrEq (d p : GoStr) : Prop :=
  p = goClean d ∨ hasPfx p (goClean d ++ ['/']) = true

theorem join2_eq {destDir rel : GoStr} (h : destDir ≠ []) :
    goJoinList [destDir, rel] = goClean (rawJoin destDir rel) := by
  simp [goJoinList, rawJoin, h, intercalateSlash]

theorem isRooted_append_any {a : GoStr} (t : GoStr) (ha : a ≠ []) :
    isRooted (a ++ t) = isRooted a := by
  cases a with
  | nil => exact absurd rfl ha
  | cons c rest => rfl

theorem pfx_dotslash_false {r : Bool} {st : List GoStr}
    (hok : ∀ x ∈ st, goodComp x) :
    hasPfx (renderParts r st) ['.', '/'] = false := by
  cases hv : hasPfx (renderParts r st) ['.', '/'] with
  | false => rfl
  | true =>
    exfalso
    rw [hasPfx_iff] at hv
    cases st with
    | nil =>
      have := pfx_len hv
      cases r <;> simp [renderParts] at this
    | cons x xs =>
      have hgx := hok x (List.mem_cons_self _ _)
      cases r with
      | true =>
        have hr : renderParts true (x :: xs) = '/' :: intercalateSlash (x :: xs) := by
          simp [renderParts]
        rw [hr] at hv
        exact absurd (cons_pfx_cons.mp hv).1 (by decide)
      | false =>
        have hr : renderParts false (x :: xs) = intercalateSlash (x :: xs) := by
          simp [renderParts]
        rw [hr, intercalateSlash_cons] at hv
        rcases List.exists_cons_of_ne_nil hgx.1 with ⟨c, cs, rfl⟩
        rw [List.cons_append] at hv
        obtain ⟨hc, hv2⟩ := cons_pfx_cons.mp hv
        cases cs with
        | nil => exact hgx.2.2 (by rw [← hc])
        | cons c2 cs2 =>
          rw [List.cons_append] at hv2
          obtain ⟨hc2, _⟩ := cons_pfx_cons.mp hv2
          exact hgx.2.1 (by rw [← hc2]; simp)

theorem pfx_slashslash_false {r : Bool} {st : List GoStr}
    (hok : ∀ x ∈ st, goodComp x) :
    hasPfx (renderParts r st) ['/', '/'] = false := by
  cases hv : hasPfx (renderParts r st) ['/', '/'] with
  | false => rfl
  | true =>
    exfalso
    rw [hasPfx_iff] at hv
    cases st with
    | nil =>
      have := pfx_len hv
      cases r <;> simp [renderParts] at this
    | cons x xs =>
      have hgx := hok x (List.mem_cons_self _ _)
      cases r with
      | false =>
        have hr : renderParts false (x :: xs) = intercalateSlash (x :: xs) := by
          simp [renderParts]
        rw [hr, intercalateSlash_cons] at hv
        rcases List.exists_cons_of_ne_nil hgx.1 with ⟨c, cs, rfl⟩
        rw [List.cons_append] at hv
        obtain ⟨hc, _⟩ := cons_pfx_cons.mp hv
        exact hgx.2.1 (by rw [← hc]; simp)
      | true =>
        have hr : renderParts true (x :: xs) = '/' :: intercalateSlash (x :: xs) := by
          simp [renderParts]
        rw [hr] at hv
        obtain ⟨_, hv2⟩ := cons_pfx_cons.mp hv
        rw [intercalateSlash_cons] at hv2
        rcases List.exists_cons_of_ne_nil hgx.1 with ⟨c, cs, rfl⟩
        rw [List.cons_append] at hv2
        obtain ⟨hc, _⟩ := cons_pfx_cons.mp hv2
        exact hgx.2.1 (by rw [← hc]; simp)

/-- If the source guard passes (string prefix check), the directory components
are a component prefix of the destination components. -/
theorem guard_of_pfx {destDir rel : GoStr}
    (h : hasPfx (goJoinList [destDir, rel]) (goClean destDir ++ ['/']) = true) :
    (cleanParts destDir).2 <+: (cleanParts (rawJoin destDir rel)).2 := by
  by_cases hd : destDir = []
  · subst hd
    exact ⟨(cleanParts (rawJoin [] rel)).2, rfl⟩
  · rw [join2_eq hd] at h
    have hr : (cleanParts (rawJoin destDir rel)).1 = (cleanParts destDir).1 := by
      unfold cleanParts rawJoin
      simp only [if_neg hd]
      rw [show destDir ++ '/' :: rel = destDir ++ ('/' :: rel) from rfl,
        isRooted_append_any _ hd]
    have hbok := cleanParts_ok destDir
    have hfok := cleanParts_ok (rawJoin destDir rel)
    unfold goClean at h
    rw [hr] at h
    exact render_pfx_stacks hbok.1 hfok.1 h

/-- An escaping entry always fails the source guard. -/
theorem guard_false_of_escape {destDir rel : GoStr} (h : escapesDir destDir rel) :
    hasPfx (goJoinList [destDir, rel]) (goClean destDir ++ ['/']) = false := by
  cases hv : hasPfx (goJoinList [destDir, rel]) (goClean destDir ++ ['/']) with
  | false => rfl
  | true => exact absurd (guard_of_pfx hv) h

theorem rooted_rawJoin {destDir rel : GoStr} (hd : destDir ≠ []) :
    (cleanParts (rawJoin destDir rel)).1 = (cleanParts destDir).1 := by
  unfold cleanParts rawJoin
  simp only [if_neg hd]
  rw [show destDir ++ '/' :: rel = destDir ++ ('/' :: rel) from rfl,
    isRooted_append_any _ hd]

/-- When the guard passes, the parent directory of the destination path is
still the extraction directory or inside it. -/
theorem dir_inside {destDir rel : GoStr}
    (h : hasPfx (goJoinList [destDir, rel]) (goClean destDir ++ ['/']) = true) :
    insideOrEq destDir (goDirOf (goJoinList [destDir, rel])) := by
  by_cases hd : destDir = []
  · exfalso
    subst hd
    by_cases hrel : rel = []
    · subst hrel
      exact absurd h (by decide)
    · have hj : goJoinList [[], rel] = goClean rel := by
        simp [goJoinList, hrel, intercalateSlash]
      rw [hj] at h
      have hds : goClean ([] : GoStr) ++ ['/'] = ['.', '/'] := by decide
      rw [hds, show goClean rel
        = renderParts (cleanParts rel).1 (cleanParts rel).2 from rfl] at h
      rw [pfx_dotslash_false (cleanParts_ok rel).1] at h
      cases h
  · have hbase_ok := cleanParts_ok destDir
    have hfull_ok := cleanParts_ok (rawJoin destDir rel)
    have hjoin : goJoinList [destDir, rel] = goClean (rawJoin destDir rel) :=
      join2_eq hd
    have hr := @rooted_rawJoin destDir rel hd
    have hgc : goClean destDir
        = renderParts (cleanParts destDir).1 (cleanParts destDir).2 := rfl
    have hgc2 : goClean (rawJoin destDir rel)
        = renderParts (cleanParts destDir).1 (cleanParts (rawJoin destDir rel)).2 := by
      rw [show goClean (rawJoin destDir rel)
        = renderParts (cleanParts (rawJoin destDir rel)).1
          (cleanParts (rawJoin destDir rel)).2 from rfl, hr]
    have h' : hasPfx
        (renderParts (cleanParts destDir).1 (cleanParts (rawJoin destDir rel)).2)
        (renderParts (cleanParts destDir).1 (cleanParts destDir).2 ++ ['/'])
        = true := by
      rw [hjoin, hgc2, hgc] at h
      exact h
    have hfull_ok2 : StackOK (cleanParts destDir).1 (cleanParts (rawJoin destDir rel)).2 := by
      rw [← hr]
      exact hfull_ok
    have hpfx : (cleanParts destDir).2 <+: (cleanParts (rawJoin destDir rel)).2 :=
      render_pfx_stacks hbase_ok.1 hfull_ok2.1 h'
    by_cases hbne : (cleanParts destDir).2 = []
    · exfalso
      rw [hbne] at h'
      cases hrv : (cleanParts destDir).1 with
      | true =>
        rw [hrv] at h'
        rw [show renderParts true ([] : List GoStr) ++ ['/'] = ['/', '/'] from rfl] at h'
        rw [pfx_slashslash_false (hrv ▸ hfull_ok2).1] at h'
        cases h'
      | false =>
        rw [hrv] at h'
        rw [show renderParts false ([] : List GoStr) ++ ['/'] = ['.', '/'] from rfl] at h'
        rw [pfx_dotslash_false (hrv ▸ hfull_ok2).1] at h'
        cases h'
    · have hfullne : (cleanParts (rawJoin destDir rel)).2 ≠ [] := by
        intro hfn
        rw [hfn] at hpfx
        have := pfx_len hpfx
        simp at this
        exact hbne this
      have hneq : (cleanParts destDir).2 ≠ (cleanParts (rawJoin destDir rel)).2 := by
        intro he
        rw [← he] at h'
        rw [hasPfx_iff] at h'
        have := pfx_len h'
        simp at this
      obtain ⟨t, htfull⟩ := hpfx
      have htne : t ≠ [] := by
        intro hte
        rw [hte, List.append_nil] at htfull
        exact hneq htfull
      obtain ⟨t2, y, hty⟩ := (List.eq_nil_or_concat t).resolve_left htne
      rw [List.concat_eq_append] at hty
      subst hty
      have hdropeq : (cleanParts (rawJoin destDir rel)).2.dropLast
          = (cleanParts destDir).2 ++ t2 := by
        rw [← htfull, ← List.append_assoc]
        simp
      have hdir : goDirOf (goJoinList [destDir, rel])
          = renderParts (cleanParts destDir).1
            ((cleanParts (rawJoin destDir rel)).2.dropLast) := by
        rw [hjoin, hgc2]
        exact dirOf_render hfull_ok2 hfullne
      by_cases hbt : t2 = []
      · left
        rw [hdir, hdropeq, hbt, List.append_nil, hgc]
      · right
        have hstrict : (cleanParts destDir).2
            ≠ (cleanParts (rawJoin destDir rel)).2.dropLast := by
          rw [hdropeq]
          intro he
          have := congrArg List.length he
          simp at this
          exact hbt this
        have hsub : (cleanParts destDir).2 <+: (cleanParts (rawJoin destDir rel)).2.dropLast :=
          ⟨t2, hdropeq.symm⟩
        have := @stack_strict_render_pfx (cleanParts destDir).1 (cleanParts destDir).2
          ((cleanParts (rawJoin destDir rel)).2.dropLast) hbne hsub hstrict
        rw [hdir, hgc]
        exact this

/-! ## Shared artifact model (src/internal/pkgmgr/types.go)

`Package.Autoload` is carried by the Go struct but never read by the
resolver/downloader/extractor pipeline, so it is omitted here. -/

/-- Embeds the Go `Dist` struct (named `PkgDist`: Mathlib already declares
`Dist`; the field `type` is named `dtype`: `type` is a Lean keyword). -/
structure PkgDist where
  url : GoStr
  dtype : GoStr
  checksum : GoStr
  shasum : GoStr
deriving DecidableEq

/-- Embeds the Go `Package` struct. -/
structure Package where
  name : GoStr
  version : GoStr
  dist : PkgDist
deriving DecidableEq

/-! ## The Extractor (src/internal/pkgmgr/extractor.go) -/

/-- One entry of a zip archive as `archive/zip` presents it. -/
structure ZipEntry where
  name : GoStr
  isDir : Bool
  mode : Nat
  content : GoStr
deriving DecidableEq

/-- A filesystem write performed while extracting one entry. -/
inductive FsWrite
  | mkdirAll (path : GoStr) (mode : Nat)
  | createFile (path : GoStr) (mode : Nat) (content : GoStr)
deriving DecidableEq

def FsWrite.path : FsWrite → GoStr
  | .mkdirAll p _ => p
  | .createFile p _ _ => p

/-- Errors of the extractor, one constructor per `return fmt.Errorf` site. -/
inductive XErr
  | illegalPath (p : GoStr)
  | mkdirDirErr
  | mkdirParentErr
  | openInZip
  | createDest
  | copyContents
  | createParentDir
  | createTempDir
  | openZip
  | entryErr (name : GoStr) (e : XErr)
  | createBackup
  | moveTempDir
deriving DecidableEq

/-- Outcomes of the fallible syscalls inside `extractZipFile` for one entry. -/
structure FileFx where
  mkdirDirOk : Bool
  mkdirParentOk : Bool
  openOk : Bool
  createOk : Bool
  copyOk : Bool
deriving DecidableEq

def allFxOk : FileFx := ⟨true, true, true, true, true⟩

/-- The relative path of an entry after common-prefix stripping
(extractor.go:146-149). -/
def strippedRel (name strip : GoStr) : GoStr :=
  if strip ≠ [] ∧ hasPfx name strip = true then trimPfx name strip else name

/-- Embeds `extractZipFile` (extractor.go:144-192).  Returns the filesystem
writes performed, in program order, paired with the error result.  A failing
`io.Copy` leaves a truncated file; its recorded content is empty here. -/
def extractZipFile (fx : FileFx) (file : ZipEntry) (destDir strip : GoStr) :
    List FsWrite × Option XErr :=
  let relativePath := strippedRel file.name strip
  if relativePath = [] then ([], none)
  else
    let destPath := goJoinList [destDir, relativePath]
    if hasPfx destPath (goClean destDir ++ ['/']) = false then
      ([], some (.illegalPath destPath))
    else if file.isDir then
      if fx.mkdirDirOk then ([.mkdirAll destPath file.mode], none)
      else ([], some .mkdirDirErr)
    else if fx.mkdirParentOk = false then ([], some .mkdirParentErr)
    else
      let parentWrite := FsWrite.mkdirAll (goDirOf destPath) 493
      if fx.openOk = false then ([parentWrite], some .openInZip)
      else if fx.createOk = false then ([parentWrite], some .createDest)
      else if fx.copyOk = false then
        ([parentWrite, .createFile destPath file.mode []], some .copyContents)
      else ([parentWrite, .createFile destPath file.mode file.content], none)

/-- The first non-empty entry name, split into components after trimming one
trailing slash (extractor.go:200-207). -/
def firstNonEmptyComps : List ZipEntry → List GoStr
  | [] => []
  | f :: rest =>
    if f.name ≠ [] then goSplit (trimSfx f.name ['/']) else firstNonEmptyComps rest

/-- Truncate `common` at the first position where it disagrees with `comps`
(extractor.go:226-237): positions beyond `comps`' length are kept. -/
def truncAt : List GoStr → List GoStr → List GoStr
  | x :: xs, y :: ys => if x = y then x :: truncAt xs ys else []
  | cs, [] => cs
  | [], _ :: _ => []

/-- Embeds `computeCommonPrefix` (extractor.go:195-251): the common leading
component path of all entries, with a trailing slash when nonempty. -/
def computeCommonRoot (files : List ZipEntry) : GoStr :=
  match files with
  | [] => []
  | _ :: _ =>
    let firstComponents := firstNonEmptyComps files
    if firstComponents = [] then []
    else
      let common := files.foldl
        (fun acc f =>
          if f.name = [] then acc
          else if acc = [] then acc
          else truncAt acc (goSplit (trimSfx f.name ['/'])))
        firstComponents
      if common ≠ [] then intercalateSlash common ++ ['/'] else []

/-- The contents (abstract ids) of the three paths `extractPackage` touches:
the final vendor directory, its `.backup` sibling, and the fresh `MkdirTemp`
directory.  `MkdirTemp` guarantees the temp name is fresh, and
`backupPath = vendorPath + ".backup"` differs from `vendorPath`, so these
three paths are distinct and the swap phase touches no others. -/
structure VendorFs where
  vendor : Option Nat
  backup : Option Nat
  temp : Option Nat
deriving DecidableEq

/-- Log events of `extractPackage` that do not change its return value. -/
inductive XLog
  | restoreFailed
  | backupCleanupFailed
deriving DecidableEq

/-- Outcomes of the fallible calls made by one `extractPackage` run. -/
structure XWorld where
  mkdirParentOk : Bool
  mkdirTempOk : Bool
  tempDirName : GoStr
  tempContent : Nat
  zipOpen : GoStr → Option (List ZipEntry)
  entryFx : Nat → FileFx
  backupRenameOk : Bool
  finalRenameOk : Bool
  restoreRenameOk : Bool
  removeBackupOk : Bool

/-- The entry loop of `extractPackage` (extractor.go:92-102): first error
wins, wrapped with the entry name (`"extract file %s: %w"`). -/
def extractEntriesErr (fx : Nat → FileFx) (tempDir root : GoStr) :
    List ZipEntry → Nat → Option XErr
  | [], _ => none
  | f :: rest, i =>
    match (extractZipFile (fx i) f tempDir root).2 with
    | some e => some (.entryErr f.name e)
    | none => extractEntriesErr fx tempDir root rest (i + 1)

/-- The swap phase of `extractPackage` (extractor.go:104-141): backup an
existing vendor dir, rename the temp dir into place, restore the backup when
that rename fails (restore failure only logged), remove the backup after a
successful swap (removal failure only logged), and run the deferred
`os.RemoveAll(tempDir)` on every error path. -/
def swapFinish (w : XWorld) (fs : VendorFs) : VendorFs × Option XErr × List XLog :=
  if w.finalRenameOk then
    let fs2 : VendorFs := { fs with vendor := fs.temp, temp := none }
    match fs2.backup with
    | some _ =>
      if w.removeBackupOk then ({ fs2 with backup := none }, none, [])
      else (fs2, none, [.backupCleanupFailed])
    | none => (fs2, none, [])
  else
    match fs.backup with
    | some b =>
      if w.restoreRenameOk then
        ({ fs with vendor := some b, backup := none, temp := none },
          some .moveTempDir, [])
      else ({ fs with temp := none }, some .moveTempDir, [.restoreFailed])
    | none => ({ fs with temp := none }, some .moveTempDir, [])

/-- Embeds `extractPackage` (extractor.go:55-142) over the abstract
three-path filesystem.  `os.Stat` is modelled as reporting existence
(its `err == nil` / `os.IsNotExist` branches); other stat errors
(extractor.go:113-115) are not injected. -/
def extractPackage (w : XWorld) (pkg : Package) (cacheDir vendorDir : GoStr)
    (fs : VendorFs) : VendorFs × Option XErr × List XLog :=
  let cachePath := goJoinList [cacheDir, pkg.name, pkg.version, pkg.name ++ ".zip".data]
  let _vendorPath := goJoinList [vendorDir, pkg.name]
  if w.mkdirParentOk = false then (fs, some .createParentDir, [])
  else if w.mkdirTempOk = false then (fs, some .createTempDir, [])
  else
    let fs1 : VendorFs := { fs with temp := some w.tempContent }
    match w.zipOpen cachePath with
    | none => ({ fs1 with temp := none }, some .openZip, [])
    | some entries =>
      let rootDir := computeCommonRoot entries
      match extractEntriesErr w.entryFx w.tempDirName rootDir entries 0 with
      | some e => ({ fs1 with temp := none }, some e, [])
      | none =>
        match fs1.vendor with
        | some v =>
          if w.backupRenameOk then
            swapFinish w { fs1 with vendor := none, backup := some v }
          else ({ fs1 with temp := none }, some .createBackup, [])
        | none => swapFinish w fs1

theorem parts2_rawJoin_nil (destDir : GoStr) :
    (cleanParts (rawJoin destDir [])).2 = (cleanParts destDir).2 := by
  by_cases hd : destDir = []
  · subst hd; rfl
  · show ((goSplit (rawJoin destDir [])).foldl
      (cleanStepR (isRooted (rawJoin destDir []))) []).reverse = _
    unfold rawJoin
    rw [if_neg hd]
    rw [goSplit_append_slash destDir [], isRooted_append_any _ hd]
    rw [show goSplit ([] : GoStr) = [[]] from rfl]
    rw [List.foldl_append, List.foldl_cons, cleanStepR_skip (Or.inl rfl), List.foldl_nil]
    rfl

/-- **C2.**  For every archive entry whose destination path — after
common-prefix stripping and joining with the extraction directory — would
resolve outside that extraction directory, `extractZipFile` returns an error
before creating or writing any file or directory for that entry (its write
trace is empty and the result is the `illegal file path` error); moreover
every write any entry ever performs targets the extraction directory itself
or a path strictly inside it, so no write outside the extraction directory
occurs. -/
theorem claim_C2_traversal_guard :
    (∀ (fx : FileFx) (file : ZipEntry) (destDir strip : GoStr),
      escapesDir destDir (strippedRel file.name strip) →
      (extractZipFile fx file destDir strip).1 = [] ∧
        ∃ p, (extractZipFile fx file destDir strip).2 = some (.illegalPath p))
    ∧ (∀ (fx : FileFx) (file : ZipEntry) (destDir strip : GoStr) (op : FsWrite),
        op ∈ (extractZipFile fx file destDir strip).1 →
        insideOrEq destDir op.path) := by
  constructor
  · intro fx file destDir strip hesc
    by_cases hrel : strippedRel file.name strip = []
    · exfalso
      apply hesc
      rw [hrel, parts2_rawJoin_nil]
    · have hguard := guard_false_of_escape hesc
      simp only [extractZipFile, if_neg hrel, hguard]
      rw [if_pos trivial]
      exact ⟨rfl, _, rfl⟩
  · intro fx file destDir strip op hop
    simp only [extractZipFile] at hop
    by_cases hrel : strippedRel file.name strip = []
    · simp only [if_pos hrel] at hop
      cases hop
    · simp only [if_neg hrel] at hop
      cases hv : hasPfx (goJoinList [destDir, strippedRel file.name strip])
          (goClean destDir ++ ['/']) with
      | false =>
        simp only [hv, if_pos rfl] at hop
        cases hop
      | true =>
        simp only [hv, Bool.true_eq_false] at hop
        rw [if_neg not_false] at hop
        have hparent : insideOrEq destDir
            (FsWrite.path (FsWrite.mkdirAll
              (goDirOf (goJoinList [destDir, strippedRel file.name strip])) 493)) :=
          dir_inside hv
        have hdest : ∀ m c, insideOrEq destDir
            (FsWrite.path (FsWrite.createFile
              (goJoinList [destDir, strippedRel file.name strip]) m c)) :=
          fun _ _ => Or.inr hv
        by_cases hdir : file.isDir = true
        · rw [if_pos hdir] at hop
          by_cases hmk : fx.mkdirDirOk = true
          · rw [if_pos hmk] at hop
            have := List.mem_singleton.mp hop
            subst this
            exact Or.inr hv
          · rw [if_neg hmk] at hop
            cases hop
        · rw [if_neg hdir] at hop
          by_cases hmp : fx.mkdirParentOk = false
          · rw [if_pos hmp] at hop
            cases hop
          · rw [if_neg hmp] at hop
            by_cases hopen : fx.openOk = false
            · rw [if_pos hopen] at hop
              have := List.mem_singleton.mp hop
              subst this
              exact hparent
            · rw [if_neg hopen] at hop
              by_cases hcr : fx.createOk = false
              · rw [if_pos hcr] at hop
                have := List.mem_singleton.mp hop
                subst this
                exact hparent
              · rw [if_neg hcr] at hop
                by_cases hcp : fx.copyOk = false
                · rw [if_pos hcp] at hop
                  rcases List.mem_cons.mp hop with rfl | hop2
                  · exact hparent
                  · have := List.mem_singleton.mp hop2
                    subst this
                    exact hdest _ _
                · rw [if_neg hcp] at hop
                  rcases List.mem_cons.mp hop with rfl | hop2
                  · exact hparent
                  · have := List.mem_singleton.mp hop2
                    subst this
                    exact hdest _ _

instance escapesDirDec (destDir rel : GoStr) : Decidable (escapesDir destDir rel) := by
  unfold escapesDir
  infer_instance

instance insideOrEqDec (d p : GoStr) : Decidable (insideOrEq d p) := by
  unfold insideOrEq
  infer_instance

/-- Witness for C2: the entry `"../evil"` (no prefix stripped) escapes
`"/tmp/vendor/pkg.tmp1"` and is rejected with no write performed. -/
theorem claim_C2_traversal_guard_witness :
    (extractZipFile allFxOk ⟨"../evil".data, false, 420, []⟩
        "/tmp/vendor/pkg.tmp1".data []).1 = [] ∧
      ∃ p, (extractZipFile allFxOk ⟨"../evil".data, false, 420, []⟩
        "/tmp/vendor/pkg.tmp1".data []).2 = some (.illegalPath p) :=
  claim_C2_traversal_guard.1 allFxOk ⟨"../evil".data, false, 420, []⟩
    "/tmp/vendor/pkg.tmp1".data [] (by decide)

/-- **C1.**  When the final rename of the fully-extracted temp directory onto
the destination fails after a pre-existing install directory was renamed
aside to the backup path, `extractPackage` renames the backup back onto the
original destination (restoring the original content unchanged), returns the
extraction error — a restoration failure is only logged and does not replace
that error — and when the swap succeeds it removes the backup. -/
theorem claim_C1_atomic_swap (w : XWorld) (pkg : Package) (cacheDir vendorDir : GoStr)
    (fs : VendorFs) (v : Nat) (entries : List ZipEntry)
    (hv : fs.vendor = some v)
    (hmp : w.mkdirParentOk = true) (hmt : w.mkdirTempOk = true)
    (hzip : w.zipOpen (goJoinList [cacheDir, pkg.name, pkg.version,
      pkg.name ++ ".zip".data]) = some entries)
    (hentries : extractEntriesErr w.entryFx w.tempDirName
      (computeCommonRoot entries) entries 0 = none)
    (hbk : w.backupRenameOk = true) :
    ((w.finalRenameOk = false →
      (extractPackage w pkg cacheDir vendorDir fs).2.1 = some .moveTempDir ∧
      (w.restoreRenameOk = true →
        (extractPackage w pkg cacheDir vendorDir fs).1.vendor = some v ∧
        (extractPackage w pkg cacheDir vendorDir fs).2.2 = []) ∧
      (w.restoreRenameOk = false →
        (extractPackage w pkg cacheDir vendorDir fs).2.2 = [.restoreFailed]))
    ∧ (w.finalRenameOk = true → w.removeBackupOk = true →
      (extractPackage w pkg cacheDir vendorDir fs).2.1 = none ∧
      (extractPackage w pkg cacheDir vendorDir fs).1.backup = none ∧
      (extractPackage w pkg cacheDir vendorDir fs).1.vendor = some w.tempContent)) := by
  have hrun : extractPackage w pkg cacheDir vendorDir fs
      = swapFinish w { vendor := none, backup := some v, temp := some w.tempContent } := by
    simp only [extractPackage, hmp, hmt, hzip, hentries, hbk, Bool.true_eq_false,
      if_neg (by simp : ¬False), if_pos rfl]
    simp [hv]
  rw [hrun]
  constructor
  · intro hfr
    cases hrr : w.restoreRenameOk <;> simp [swapFinish, hfr, hrr]
  · intro hfr hrm
    simp [swapFinish, hfr, hrm]

/-! ## SHA-1 (Go `crypto/sha1`), per FIPS 180-4

Bytes are `Nat` values below 256; words are `Nat` values below `2^32` with
explicit `% 4294967296` where overflow matters.  `hex.EncodeToString` is the
lowercase hex encoding. -/

def rotl32 (n x : Nat) : Nat := ((x <<< n) ||| (x >>> (32 - n))) % 4294967296

def not32 (x : Nat) : Nat := x ^^^ 4294967295

/-- FIPS 180-4 message padding: `0x80`, zeros to 56 mod 64, then the bit
length as a 64-bit big-endian integer. -/
def sha1Pad (msg : List Nat) : List Nat :=
  let ml := msg.length * 8
  let k := (119 - msg.length % 64) % 64
  msg ++ [128] ++ List.replicate k 0 ++
    [(ml >>> 56) % 256, (ml >>> 48) % 256, (ml >>> 40) % 256, (ml >>> 32) % 256,
      (ml >>> 24) % 256, (ml >>> 16) % 256, (ml >>> 8) % 256, ml % 256]

/-- Structural (fuel-indexed) splitting into chunks; `fuel ≥ l.length`
suffices since every step consumes at least one element. -/
def chunksOfAux (n : Nat) : Nat → List Nat → List (List Nat)
  | _, [] => []
  | 0, _ :: _ => []
  | fuel + 1, x :: rest => (x :: rest).take n :: chunksOfAux n fuel ((x :: rest).drop n)

def chunksOf (n : Nat) (l : List Nat) : List (List Nat) :=
  if n = 0 then [] else chunksOfAux n l.length l

/-- Big-endian 4-byte word. -/
def bytesToWord (b : List Nat) : Nat := b.foldl (fun acc x => acc * 256 + x) 0

/-- The 80-word message schedule. -/
def extendTo80 (w : List Nat) : List Nat :=
  (List.range 80).foldl
    (fun acc i =>
      if i < 16 then acc ++ [w.getD i 0]
      else acc ++ [rotl32 1 ((acc.getD (i - 3) 0) ^^^ (acc.getD (i - 8) 0)
        ^^^ (acc.getD (i - 14) 0) ^^^ (acc.getD (i - 16) 0))])
    []

def sha1Compress (h : Nat × Nat × Nat × Nat × Nat) (block : List Nat) :
    Nat × Nat × Nat × Nat × Nat :=
  let w := ((chunksOf 4 block).map bytesToWord)
  let ws := extendTo80 w
  let s := (List.range 80).foldl
    (fun (s : Nat × Nat × Nat × Nat × Nat) i =>
      let (a, b, c, d, e) := s
      let fk : Nat × Nat :=
        if i < 20 then ((b &&& c) ||| ((not32 b) &&& d), 1518500249)
        else if i < 40 then (b ^^^ c ^^^ d, 1859775393)
        else if i < 60 then ((b &&& c) ||| (b &&& d) ||| (c &&& d), 2400959708)
        else (b ^^^ c ^^^ d, 3395469782)
      let temp := (rotl32 5 a + fk.1 + e + fk.2 + ws.getD i 0) % 4294967296
      (temp, a, rotl32 30 b, c, d))
    (h.1, h.2.1, h.2.2.1, h.2.2.2.1, h.2.2.2.2)
  ((h.1 + s.1) % 4294967296, (h.2.1 + s.2.1) % 4294967296,
    (h.2.2.1 + s.2.2.1) % 4294967296, (h.2.2.2.1 + s.2.2.2.1) % 4294967296,
    (h.2.2.2.2 + s.2.2.2.2) % 4294967296)

/-- One 32-bit word as 8 lowercase hex digits. -/
def word2hex (x : Nat) : GoStr :=
  (List.range 8).map (fun i => Nat.digitChar ((x >>> ((7 - i) * 4)) % 16))

/-- SHA-1 digest of a byte sequence, lowercase hex encoded: the composition
of Go `sha1.New`/`io.Copy`/`Sum` with `hex.EncodeToString`. -/
def sha1Hex (msg : List Nat) : GoStr :=
  let blocks := chunksOf 64 (sha1Pad msg)
  let h := blocks.foldl sha1Compress
    (1732584193, 4023233417, 2562383102, 271733878, 3285377520)
  word2hex h.1 ++ word2hex h.2.1 ++ word2hex h.2.2.1
    ++ word2hex h.2.2.2.1 ++ word2hex h.2.2.2.2

/-- FIPS 180-4 test vector: the empty message. -/
theorem sha1Hex_empty_vector :
    sha1Hex [] = "da39a3ee5e6b4b0d3255bfef95601890afd80709".data := by decide

/-- FIPS 180-4 test vector: `"abc"`. -/
theorem sha1Hex_abc_vector :
    sha1Hex [97, 98, 99] = "a9993e364706816aba3e25717850c26c9cd0d89d".data := by decide

/-! ## The Downloader (src/internal/pkgmgr/downloader.go)

The cache directory is a finite map from cache paths to the byte contents of
the fully-written files at those paths (partially-written temp files are
never in it: they live under temp names and are renamed in atomically). -/

abbrev Cache := List (GoStr × List Nat)

def cacheLookup (c : Cache) (p : GoStr) : Option (List Nat) :=
  (c.find? (fun kv => kv.1 == p)).map (fun kv => kv.2)

def cacheErase (c : Cache) (p : GoStr) : Cache :=
  c.filter (fun kv => !(kv.1 == p))

def cacheInsert (c : Cache) (p : GoStr) (b : List Nat) : Cache :=
  (p, b) :: cacheErase c p

/-- The deterministic cache path
`{cacheRoot}/{name}/{version}/{name}.zip` (downloader.go:68). -/
def cachePathOf (cacheDir : GoStr) (pkg : Package) : GoStr :=
  goJoinList [cacheDir, pkg.name, pkg.version, pkg.name ++ ".zip".data]

/-- Outcome of one HTTP GET. -/
inductive HttpResult
  | transportErr
  | resp (status : Nat) (body : List Nat)
deriving DecidableEq

/-- Downloader errors, one constructor per `return fmt.Errorf` site of
`downloadPackage`. -/
inductive DErr
  | createCacheDir
  | transport
  | httpStatus (code : Nat)
  | createTemp
  | chmodTemp
  | writeTemp
  | syncTemp
  | closeTemp
  | renameTemp
  | reopenCache
  | checksumMismatch (expected actual : GoStr)
deriving DecidableEq

/-- Outcomes of the fallible calls made by one `downloadPackage` run. -/
structure DlWorld where
  mkdirOk : Bool
  http : GoStr → HttpResult
  createTempOk : Bool
  chmodOk : Bool
  writeOk : Bool
  syncOk : Bool
  closeOk : Bool
  renameOk : Bool
  reopenOk : Bool

/-- Embeds `downloadPackage` (downloader.go:67-171).  Returns the final cache
state, the list of URLs actually requested over the network, and the error
result.  `http.NewRequestWithContext` can fail only on a malformed URL; that
exit is folded into `HttpResult.transportErr` (both are pre-response
failures of the same fetch). -/
def downloadPackage (w : DlWorld) (pkg : Package) (cacheDir : GoStr)
    (cache : Cache) : Cache × List GoStr × Option DErr :=
  let cachePath := cachePathOf cacheDir pkg
  if w.mkdirOk = false then (cache, [], some .createCacheDir)
  else match cacheLookup cache cachePath with
  | some _ => (cache, [], none)
  | none =>
    match w.http pkg.dist.url with
    | .transportErr => (cache, [pkg.dist.url], some .transport)
    | .resp status body =>
      if status ≠ 200 then (cache, [pkg.dist.url], some (.httpStatus status))
      else if w.createTempOk = false then (cache, [pkg.dist.url], some .createTemp)
      else if w.chmodOk = false then (cache, [pkg.dist.url], some .chmodTemp)
      else if w.writeOk = false then (cache, [pkg.dist.url], some .writeTemp)
      else if w.syncOk = false then (cache, [pkg.dist.url], some .syncTemp)
      else if w.closeOk = false then (cache, [pkg.dist.url], some .closeTemp)
      else if w.renameOk = false then (cache, [pkg.dist.url], some .renameTemp)
      else
        let cache1 := cacheInsert cache cachePath body
        if pkg.dist.checksum ≠ [] ∨ pkg.dist.shasum ≠ [] then
          let expectedHash :=
            if pkg.dist.checksum = [] then pkg.dist.shasum else pkg.dist.checksum
          if w.reopenOk = false then (cache1, [pkg.dist.url], some .reopenCache)
          else
            let fileBytes := (cacheLookup cache1 cachePath).getD []
            let actualHash := sha1Hex fileBytes
            if actualHash ≠ expectedHash then
              (cacheErase cache1 cachePath, [pkg.dist.url],
                some (.checksumMismatch expectedHash actualHash))
            else (cache1, [pkg.dist.url], none)
        else (cache1, [pkg.dist.url], none)

theorem cacheLookup_insert (c : Cache) (p : GoStr) (b : List Nat) :
    cacheLookup (cacheInsert c p b) p = some b := by
  simp [cacheLookup, cacheInsert, List.find?]

theorem cacheLookup_erase (c : Cache) (p : GoStr) :
    cacheLookup (cacheErase c p) p = none := by
  simp only [cacheLookup, cacheErase]
  rw [List.find?_eq_none.mpr]
  · rfl
  · intro kv hkv
    have := List.of_mem_filter hkv
    simp at this
    simp [this]

/-- **C3.**  For an artifact carrying a digest, after the downloaded bytes are
renamed into the cache the cached file is re-read and its SHA-1 hex digest
compared with the expected one: on mismatch the cache entry is deleted and an
integrity error returned (no mismatched file remains cached); on match the
download succeeds with no error and the file stays cached. -/
theorem claim_C3_digest_verification (w : DlWorld) (pkg : Package) (cacheDir : GoStr)
    (cache : Cache) (b : List Nat)
    (hdig : pkg.dist.checksum ≠ [] ∨ pkg.dist.shasum ≠ [])
    (hm : w.mkdirOk = true)
    (hmiss : cacheLookup cache (cachePathOf cacheDir pkg) = none)
    (hhttp : w.http pkg.dist.url = .resp 200 b)
    (hct : w.createTempOk = true) (hch : w.chmodOk = true) (hwr : w.writeOk = true)
    (hsy : w.syncOk = true) (hcl : w.closeOk = true) (hrn : w.renameOk = true)
    (hro : w.reopenOk = true) :
    ((sha1Hex b ≠ (if pkg.dist.checksum = [] then pkg.dist.shasum else pkg.dist.checksum) →
      (downloadPackage w pkg cacheDir cache).2.2
        = some (.checksumMismatch
            (if pkg.dist.checksum = [] then pkg.dist.shasum else pkg.dist.checksum)
            (sha1Hex b)) ∧
      cacheLookup (downloadPackage w pkg cacheDir cache).1 (cachePathOf cacheDir pkg)
        = none)
    ∧ (sha1Hex b = (if pkg.dist.checksum = [] then pkg.dist.shasum else pkg.dist.checksum) →
      (downloadPackage w pkg cacheDir cache).2.2 = none ∧
      cacheLookup (downloadPackage w pkg cacheDir cache).1 (cachePathOf cacheDir pkg)
        = some b)) := by
  have hrun : downloadPackage w pkg cacheDir cache
      = (if sha1Hex b
            ≠ (if pkg.dist.checksum = [] then pkg.dist.shasum else pkg.dist.checksum) then
          (cacheErase (cacheInsert cache (cachePathOf cacheDir pkg) b)
              (cachePathOf cacheDir pkg), [pkg.dist.url],
            some (.checksumMismatch
              (if pkg.dist.checksum = [] then pkg.dist.shasum else pkg.dist.checksum)
              (sha1Hex b)))
        else (cacheInsert cache (cachePathOf cacheDir pkg) b, [pkg.dist.url], none)) := by
    simp only [downloadPackage, hm, hmiss, hhttp, hct, hch, hwr, hsy, hcl, hrn, hro,
      Bool.true_eq_false, if_neg (by simp : ¬False), if_pos hdig,
      if_neg (by simp : ¬(200 ≠ 200)), cacheLookup_insert, Option.getD_some]
  constructor
  · intro hne
    rw [hrun, if_pos hne]
    exact ⟨rfl, cacheLookup_erase _ _⟩
  · intro heq
    rw [hrun, if_neg (fun hc => hc heq)]
    exact ⟨rfl, cacheLookup_insert _ _ _⟩

/-- **C7.**  A pre-existing cache entry at the deterministic path
`{cacheRoot}/{name}/{version}/{name}.zip` makes `downloadPackage` succeed
with no network request, no digest re-verification (the result does not
depend on any fetch/verify outcome in `w`), and the cache unchanged; hence a
run over a fully-populated cache performs zero network requests. -/
theorem claim_C7_cache_hit (w : DlWorld) (pkg : Package) (cacheDir : GoStr)
    (cache : Cache) (b : List Nat)
    (hm : w.mkdirOk = true)
    (hhit : cacheLookup cache (cachePathOf cacheDir pkg) = some b) :
    downloadPackage w pkg cacheDir cache = (cache, [], none) ∧
    (∀ (pkgs : List Package),
      (∀ q ∈ pkgs, ∃ c, cacheLookup cache (cachePathOf cacheDir q) = some c) →
      ∀ q ∈ pkgs, downloadPackage w q cacheDir cache = (cache, [], none)) := by
  constructor
  · simp [downloadPackage, hm, hhit]
  · intro pkgs hall q hq
    obtain ⟨c, hc⟩ := hall q hq
    simp [downloadPackage, hm, hc]

/-- A downloader world with every syscall succeeding and a fixed HTTP map. -/
def dlAllOk (h : GoStr → HttpResult) : DlWorld :=
  ⟨true, h, true, true, true, true, true, true, true⟩

def c3pkg : Package :=
  ⟨"acme/widget".data, "1.0.0".data,
    ⟨"https://x/w.zip".data, "zip".data, "00".data, []⟩⟩

/-- Witness for C3: digest `"00"` never matches the SHA-1 of the empty body,
so the entry is deleted and an integrity error returned. -/
theorem claim_C3_digest_verification_witness :
    (downloadPackage (dlAllOk (fun _ => .resp 200 [])) c3pkg "/cache".data []).2.2
        = some (.checksumMismatch "00".data (sha1Hex [])) ∧
      cacheLookup (downloadPackage (dlAllOk (fun _ => .resp 200 [])) c3pkg
        "/cache".data []).1 (cachePathOf "/cache".data c3pkg) = none :=
  (claim_C3_digest_verification (dlAllOk (fun _ => .resp 200 [])) c3pkg "/cache".data
    [] [] (Or.inl (by decide)) rfl rfl rfl rfl rfl rfl rfl rfl rfl rfl).1 (by decide)

def c7cache : Cache := [(cachePathOf "/cache".data c3pkg, [1, 2, 3])]

/-- Witness for C7: with the entry already cached, the call succeeds with no
request even though every HTTP response in this world is a 500. -/
theorem claim_C7_cache_hit_witness :
    downloadPackage (dlAllOk (fun _ => .resp 500 [])) c3pkg "/cache".data c7cache
      = (c7cache, [], none) :=
  (claim_C7_cache_hit (dlAllOk (fun _ => .resp 500 [])) c3pkg "/cache".data c7cache
    [1, 2, 3] rfl rfl).1

/-- **C10.**  Digest verification hashes the cached bytes with SHA-1 and
compares the lowercase hex encoding with the expected digest; a non-empty
`Dist.Checksum` is used as the expected digest (`Dist.Shasum` is then
ignored, whatever its value); `Dist.Shasum` is used only when `Dist.Checksum`
is empty; and verification runs only when at least one of the two fields is
non-empty (with both empty, the download succeeds without reopening the
file). -/
theorem claim_C10_digest_selection (w : DlWorld) (pkg : Package) (cacheDir : GoStr)
    (cache : Cache) (b : List Nat)
    (hm : w.mkdirOk = true)
    (hmiss : cacheLookup cache (cachePathOf cacheDir pkg) = none)
    (hhttp : w.http pkg.dist.url = .resp 200 b)
    (hct : w.createTempOk = true) (hch : w.chmodOk = true) (hwr : w.writeOk = true)
    (hsy : w.syncOk = true) (hcl : w.closeOk = true) (hrn : w.renameOk = true) :
    ((pkg.dist.checksum ≠ [] → w.reopenOk = true →
      (sha1Hex b ≠ pkg.dist.checksum →
        (downloadPackage w pkg cacheDir cache).2.2
          = some (.checksumMismatch pkg.dist.checksum (sha1Hex b))) ∧
      (sha1Hex b = pkg.dist.checksum →
        (downloadPackage w pkg cacheDir cache).2.2 = none))
    ∧ (pkg.dist.checksum = [] → pkg.dist.shasum ≠ [] → w.reopenOk = true →
      (sha1Hex b ≠ pkg.dist.shasum →
        (downloadPackage w pkg cacheDir cache).2.2
          = some (.checksumMismatch pkg.dist.shasum (sha1Hex b))) ∧
      (sha1Hex b = pkg.dist.shasum →
        (downloadPackage w pkg cacheDir cache).2.2 = none))
    ∧ (pkg.dist.checksum = [] → pkg.dist.shasum = [] →
      (downloadPackage w pkg cacheDir cache).2.2 = none)) := by
  have hrun : downloadPackage w pkg cacheDir cache
      = (if pkg.dist.checksum ≠ [] ∨ pkg.dist.shasum ≠ [] then
          (if w.reopenOk = false then
            (cacheInsert cache (cachePathOf cacheDir pkg) b, [pkg.dist.url],
              some .reopenCache)
          else if sha1Hex b
              ≠ (if pkg.dist.checksum = [] then pkg.dist.shasum else pkg.dist.checksum) then
            (cacheErase (cacheInsert cache (cachePathOf cacheDir pkg) b)
                (cachePathOf cacheDir pkg), [pkg.dist.url],
              some (.checksumMismatch
                (if pkg.dist.checksum = [] then pkg.dist.shasum else pkg.dist.checksum)
                (sha1Hex b)))
          else (cacheInsert cache (cachePathOf cacheDir pkg) b, [pkg.dist.url], none))
        else (cacheInsert cache (cachePathOf cacheDir pkg) b, [pkg.dist.url], none)) := by
    simp only [downloadPackage, hm, hmiss, hhttp, hct, hch, hwr, hsy, hcl, hrn,
      Bool.true_eq_false, if_neg (by simp : ¬False),
      if_neg (by simp : ¬(200 ≠ 200)), cacheLookup_insert, Option.getD_some]
  refine ⟨?_, ?_, ?_⟩
  · intro hcs hro
    have hE : (if pkg.dist.checksum = [] then pkg.dist.shasum else pkg.dist.checksum)
        = pkg.dist.checksum := if_neg hcs
    rw [hrun, if_pos (Or.inl hcs), if_neg (by simp [hro]), hE]
    constructor
    · intro hne
      rw [if_pos hne]
    · intro heq
      rw [if_neg (fun hc => hc heq)]
  · intro hcs hsh hro
    have hE : (if pkg.dist.checksum = [] then pkg.dist.shasum else pkg.dist.checksum)
        = pkg.dist.shasum := if_pos hcs
    rw [hrun, if_pos (Or.inr hsh), if_neg (by simp [hro]), hE]
    constructor
    · intro hne
      rw [if_pos hne]
    · intro heq
      rw [if_neg (fun hc => hc heq)]
  · intro hcs hsh
    rw [hrun, if_neg (by simp [hcs, hsh])]

def c10pkg : Package :=
  ⟨"acme/widget".data, "1.0.0".data,
    ⟨"https://x/w.zip".data, "zip".data,
      "da39a3ee5e6b4b0d3255bfef95601890afd80709".data, "ffff".data⟩⟩

/-- Witness for C10: `Checksum` holds the SHA-1 of the empty body, `Shasum`
holds garbage, and the download succeeds — `Checksum` wins. -/
theorem claim_C10_digest_selection_witness :
    (downloadPackage (dlAllOk (fun _ => .resp 200 [])) c10pkg "/cache".data []).2.2
      = none :=
  ((claim_C10_digest_selection (dlAllOk (fun _ => .resp 200 [])) c10pkg "/cache".data
    [] [] rfl rfl rfl rfl rfl rfl rfl rfl rfl).1 (by decide) rfl).2 (by decide)

/-! ## Batch behaviour of the two stages (C4)

`DownloadPackages` (downloader.go:19-65) runs the per-package fetches as
concurrent tasks; each failing task sends its error, wrapped as
`"package %s: %w"`, into the error channel (line 43).  The collection loop
(lines 56-61) takes errors in channel-arrival order, and on the first one it
calls `cancel()` and returns it.  The loop is modelled over the list of
failures in arrival order; the returned `Bool` is whether `cancel()` fired
because of an error. -/

inductive DlBatchErr
  | pkgErr (name : GoStr) (e : DErr)
deriving DecidableEq

/-- The error-collection loop of `DownloadPackages` (downloader.go:56-64). -/
def downloadBatchResult : List (GoStr × DErr) → Option DlBatchErr × Bool
  | [] => (none, false)
  | (n, e) :: _ => (some (.pkgErr n e), true)

/-- `ExtractPackages` batch error: `"failed to extract %d package(s): …"`
carrying every failed package's name and error (extractor.go:48-50). -/
inductive XBatchErr
  | combined (failures : List (GoStr × XErr))
deriving DecidableEq

/-- Embeds the `ExtractPackages` loop (extractor.go:17-53) with the
per-package extraction outcome abstracted by `extFn` (the result of
`extractPackage`, modelled separately).  Returns the names attempted in
order, the `(name, error)` pairs collected, and the combined batch error. -/
def ExtractPackagesRun (extFn : Package → Option XErr) (packages : List Package) :
    List GoStr × List (GoStr × XErr) × Option XBatchErr :=
  let acc := packages.foldl
    (fun (acc : List GoStr × List (GoStr × XErr)) pkg =>
      match extFn pkg with
      | some e => (acc.1 ++ [pkg.name], acc.2 ++ [(pkg.name, e)])
      | none => (acc.1 ++ [pkg.name], acc.2))
    ([], [])
  (acc.1, acc.2, if acc.2 = [] then none else some (.combined acc.2))

theorem extractRun_foldl (extFn : Package → Option XErr) :
    ∀ (packages : List Package) (a : List GoStr) (f : List (GoStr × XErr)),
      packages.foldl
        (fun (acc : List GoStr × List (GoStr × XErr)) pkg =>
          match extFn pkg with
          | some e => (acc.1 ++ [pkg.name], acc.2 ++ [(pkg.name, e)])
          | none => (acc.1 ++ [pkg.name], acc.2))
        (a, f)
      = (a ++ packages.map Package.name,
         f ++ packages.filterMap (fun q => (extFn q).map (fun e => (q.name, e)))) := by
  intro packages
  induction packages with
  | nil => intro a f; simp
  | cons p ps ih =>
    intro a f
    rw [List.foldl_cons]
    cases he : extFn p with
    | none =>
      simp only [he]
      rw [ih]
      simp [he]
    | some e =>
      simp only [he]
      rw [ih]
      simp [he]

def c4p1 : Package := ⟨"a/x".data, "1".data, ⟨"https://a".data, "zip".data, [], []⟩⟩

def c4p2 : Package := ⟨"b/y".data, "1".data, ⟨"https://b".data, "zip".data, [], []⟩⟩

def c4ext : Package → Option XErr :=
  fun q => if q.name == "a/x".data then some .openZip else some .createTempDir

/-- Counterexample to C4 as stated: with two packages whose extraction both
fails, `ExtractPackages` still processes the second package after the first
failure (the stage is not aborted) and returns the combined error naming both
failures, not the first error alone. -/
theorem claim_C4_counterexample :
    (ExtractPackagesRun c4ext [c4p1, c4p2]).1 = ["a/x".data, "b/y".data] ∧
    (ExtractPackagesRun c4ext [c4p1, c4p2]).1 ≠ ["a/x".data] ∧
    (ExtractPackagesRun c4ext [c4p1, c4p2]).2.2
      = some (.combined [("a/x".data, .openZip), ("b/y".data, .createTempDir)]) ∧
    (ExtractPackagesRun c4ext [c4p1, c4p2]).2.2
      ≠ some (.combined [("a/x".data, .openZip)]) := by
  decide

/-- **C4 (amended).**  For downloads, the first failure in channel-arrival
order cancels the shared context (sibling fetches abort) and
`DownloadPackages` returns that error with the artifact name attached.  For
extraction, a package failure does not stop the per-package loop:
`ExtractPackages` attempts every package and, when at least one fails,
returns a combined error carrying every failing artifact's name and error. -/
theorem claim_C4_amended :
    (∀ (n : GoStr) (e : DErr) (rest : List (GoStr × DErr)),
      downloadBatchResult ((n, e) :: rest) = (some (.pkgErr n e), true))
    ∧ (∀ (extFn : Package → Option XErr) (packages : List Package),
        (ExtractPackagesRun extFn packages).1 = packages.map Package.name
        ∧ (ExtractPackagesRun extFn packages).2.1
            = packages.filterMap (fun q => (extFn q).map (fun e => (q.name, e)))
        ∧ ((∃ q ∈ packages, extFn q ≠ none) →
            (ExtractPackagesRun extFn packages).2.2
              = some (.combined (packages.filterMap
                  (fun q => (extFn q).map (fun e => (q.name, e))))))) := by
  constructor
  · intro n e rest
    rfl
  · intro extFn packages
    have h := extractRun_foldl extFn packages [] []
    unfold ExtractPackagesRun
    rw [h]
    refine ⟨by simp, by simp, ?_⟩
    rintro ⟨q, hq, hne⟩
    have hnonnil : packages.filterMap (fun q => (extFn q).map (fun e => (q.name, e)))
        ≠ [] := by
      intro hemp
      have hq2 := List.filterMap_eq_nil_iff.mp hemp q hq
      cases he : extFn q with
      | none => exact hne he
      | some e =>
        rw [he] at hq2
        simp at hq2
    simp only [List.nil_append]
    rw [if_neg hnonnil]

/-- Witness for the amended C4. -/
theorem claim_C4_amended_witness :
    (ExtractPackagesRun c4ext [c4p1, c4p2]).2.2
      = some (.combined ([c4p1, c4p2].filterMap
          (fun q => (c4ext q).map (fun e => (q.name, e))))) :=
  (claim_C4_amended.2 c4ext [c4p1, c4p2]).2.2
    ⟨c4p1, List.mem_cons_self _ _, by decide⟩

/-! ## The Resolver (load.go, `package pkgmgr` resolver section)

The HTTP world `rw` maps a full metadata URL to the response outcome; a
decoded document is the `package.versions` map as a list of
`(version, dist)` pairs in Go map iteration order — the Go runtime does not
specify (and deliberately randomises) that order, so it is an explicit
parameter here. -/

/-- Embeds the Go `Repository` struct (`Type` is named `rtype`). -/
structure Repository where
  rtype : GoStr
  url : GoStr
deriving DecidableEq

/-- Outcome of one repository metadata GET plus JSON decode. -/
inductive RepoResp
  | transportErr
  | status (code : Nat)
  | decodeErr
  | ok (versions : List (GoStr × PkgDist))
deriving DecidableEq

/-- Resolver errors, one per `return`/`fmt.Errorf` site. -/
inductive RErr
  | lookupErr (name : GoStr)
  | statusErr (base : GoStr) (code : Nat) (name : GoStr)
  | decodeFail (name : GoStr)
  | noHttpsDist (name : GoStr)
  | assetNotFound (name : GoStr)
deriving DecidableEq

/-- `fmt.Sprintf("%s/packages/%s.json", baseURL, name)` (load.go:291). -/
def repoURLOf (base name : GoStr) : GoStr :=
  base ++ "/packages/".data ++ name ++ ".json".data

/-- The version-selection loop of `queryComposerRepository` (load.go:315-324):
first decoded version whose dist URL is non-empty and `https://`-prefixed. -/
def selectFirstHttps (name : GoStr) : List (GoStr × PkgDist) → Except RErr Package
  | [] => .error (.noHttpsDist name)
  | (version, d) :: rest =>
    if d.url ≠ [] ∧ hasPfx d.url "https://".data = true then
      .ok ⟨name, version, d⟩
    else selectFirstHttps name rest

/-- Embeds `queryComposerRepository` (load.go:290-327). -/
def queryComposerRepository (rw : GoStr → RepoResp) (baseURL name _constraint : GoStr) :
    Except RErr Package :=
  match rw (repoURLOf baseURL name) with
  | .transportErr => .error (.lookupErr name)
  | .status code => .error (.statusErr baseURL code name)
  | .decodeErr => .error (.decodeFail name)
  | .ok versions => selectFirstHttps name versions

/-- Word character of Go regexp `\w`. -/
def isWordChar (c : Char) : Bool := c.isAlphanum || c == '_'

/-- Embeds the regexp `^ext-(\w+)$` applied to `name`. -/
def phpExtMatch (name : GoStr) : Bool :=
  hasPfx name "ext-".data && !(name.drop 4).isEmpty && (name.drop 4).all isWordChar

/-- Embeds `isPlatformRequirement` (load.go:329-331). -/
def isPlatformRequirement (name : GoStr) : Bool :=
  phpExtMatch name || name == "php".data

/-- Embeds the asset check of `resolvePackage` (load.go:249): regexps
`^npm-asset/` and `^bower-asset/`. -/
def isAssetName (name : GoStr) : Bool :=
  hasPfx name "npm-asset/".data || hasPfx name "bower-asset/".data

/-- The asset-repository loop of `resolvePackage` (load.go:255-266). -/
def assetLoop (rw : GoStr → RepoResp) (name constraint : GoStr) :
    List Repository → Except RErr Package
  | [] => .error (.assetNotFound name)
  | repo :: rest =>
    if repo.rtype == "composer".data
        && goContains repo.url "asset-packagist.org".data then
      match queryComposerRepository rw repo.url name constraint with
      | .ok pkg => .ok pkg
      | .error _ => assetLoop rw name constraint rest
    else assetLoop rw name constraint rest

/-- The custom-repository loop with Packagist fallback (load.go:270-287);
`git` repositories are logged and skipped, like any non-matching entry. -/
def customLoop (rw : GoStr → RepoResp) (name constraint : GoStr) :
    List Repository → Except RErr Package
  | [] => queryComposerRepository rw "https://packagist.org".data name constraint
  | repo :: rest =>
    if repo.rtype == "composer".data
        && !(goContains repo.url "asset-packagist.org".data) then
      match queryComposerRepository rw repo.url name constraint with
      | .ok pkg => .ok pkg
      | .error _ => customLoop rw name constraint rest
    else customLoop rw name constraint rest

/-- Embeds `resolvePackage` (load.go:247-288). -/
def resolvePackage (rw : GoStr → RepoResp) (name constraint : GoStr)
    (repositories : List Repository) : Except RErr Package :=
  if isAssetName name then assetLoop rw name constraint repositories
  else customLoop rw name constraint repositories

/-- Embeds `ResolvePackagesWithRepos` (load.go:218-245) over the requirement
map in iteration order: platform requirements are skipped silently, failures
are recorded as `(name, error)` and the loop continues, and the function
itself always returns a `nil` hard error. -/
def ResolvePackagesWithRepos (rw : GoStr → RepoResp)
    (require : List (GoStr × GoStr)) (repositories : List Repository) :
    List Package × List (GoStr × RErr) × Option RErr :=
  let acc := require.foldl
    (fun (acc : List Package × List (GoStr × RErr)) nc =>
      if isPlatformRequirement nc.1 then acc
      else match resolvePackage rw nc.1 nc.2 repositories with
        | .error e => (acc.1, acc.2 ++ [(nc.1, e)])
        | .ok pkg => (acc.1 ++ [pkg], acc.2))
    ([], [])
  (acc.1, acc.2, none)

theorem resolveRun_foldl (rw : GoStr → RepoResp) (repositories : List Repository) :
    ∀ (require : List (GoStr × GoStr)) (p : List Package) (f : List (GoStr × RErr)),
      require.foldl
        (fun (acc : List Package × List (GoStr × RErr)) nc =>
          if isPlatformRequirement nc.1 then acc
          else match resolvePackage rw nc.1 nc.2 repositories with
            | .error e => (acc.1, acc.2 ++ [(nc.1, e)])
            | .ok pkg => (acc.1 ++ [pkg], acc.2))
        (p, f)
      = (p ++ require.filterMap (fun nc =>
            if isPlatformRequirement nc.1 then none
            else (resolvePackage rw nc.1 nc.2 repositories).toOption),
         f ++ require.filterMap (fun nc =>
            if isPlatformRequirement nc.1 then none
            else match resolvePackage rw nc.1 nc.2 repositories with
              | .error e => some (nc.1, e)
              | .ok _ => none)) := by
  intro require
  induction require with
  | nil => intro p f; simp
  | cons nc ncs ih =>
    intro p f
    rw [List.foldl_cons]
    by_cases hplat : isPlatformRequirement nc.1 = true
    · simp only [if_pos hplat]
      rw [ih]
      simp [hplat]
    · simp only [Bool.not_eq_true] at hplat
      rw [if_neg (by simp [hplat])]
      cases hres : resolvePackage rw nc.1 nc.2 repositories with
      | error e =>
        simp only [hres]
        rw [ih]
        simp [hplat, hres, Except.toOption]
      | ok pkg =>
        simp only [hres]
        rw [ih]
        simp [hplat, hres, Except.toOption]

/-- **C5.**  `ResolvePackagesWithRepos` never returns a hard error: it returns
the packages that resolved, records a `(name, reason)` failure entry for each
requirement that could not be resolved, skips platform pseudo-packages, and
in the all-failures case yields an empty artifact list plus the full failure
list rather than an error. -/
theorem claim_C5_failsoft (rw : GoStr → RepoResp) (require : List (GoStr × GoStr))
    (repositories : List Repository) :
    (ResolvePackagesWithRepos rw require repositories).2.2 = none
    ∧ (ResolvePackagesWithRepos rw require repositories).1
        = require.filterMap (fun nc =>
            if isPlatformRequirement nc.1 then none
            else (resolvePackage rw nc.1 nc.2 repositories).toOption)
    ∧ (ResolvePackagesWithRepos rw require repositories).2.1
        = require.filterMap (fun nc =>
            if isPlatformRequirement nc.1 then none
            else match resolvePackage rw nc.1 nc.2 repositories with
              | .error e => some (nc.1, e)
              | .ok _ => none)
    ∧ ((∀ nc ∈ require, isPlatformRequirement nc.1 = false →
          ∃ e, resolvePackage rw nc.1 nc.2 repositories = .error e) →
        (ResolvePackagesWithRepos rw require repositories).1 = []) := by
  have h := resolveRun_foldl rw repositories require [] []
  refine ⟨rfl, ?_, ?_, ?_⟩
  · show (ResolvePackagesWithRepos rw require repositories).1 = _
    unfold ResolvePackagesWithRepos
    rw [h]
    simp
  · show (ResolvePackagesWithRepos rw require repositories).2.1 = _
    unfold ResolvePackagesWithRepos
    rw [h]
    simp
  · intro hall
    unfold ResolvePackagesWithRepos
    rw [h]
    simp only [List.nil_append]
    rw [List.filterMap_eq_nil_iff.mpr]
    intro nc hnc
    by_cases hplat : isPlatformRequirement nc.1 = true
    · simp [hplat]
    · simp only [Bool.not_eq_true] at hplat
      obtain ⟨e, he⟩ := hall nc hnc hplat
      simp [hplat, he, Except.toOption]

/-- Witness for C5: a world where every metadata request returns 404 — the
single requirement fails, yet the result is an empty artifact list. -/
theorem claim_C5_failsoft_witness :
    (ResolvePackagesWithRepos (fun _ => .status 404)
      [("acme/widget".data, "^1.0".data)] []).1 = [] :=
  (claim_C5_failsoft (fun _ => .status 404) [("acme/widget".data, "^1.0".data)] []).2.2.2
    (by
      intro nc hnc hplat
      rw [List.mem_singleton] at hnc
      subst hnc
      exact ⟨_, rfl⟩)

theorem selectFirstHttps_ok {name : GoStr} :
    ∀ {versions : List (GoStr × PkgDist)} {pkg : Package},
      selectFirstHttps name versions = .ok pkg →
      pkg.dist.url ≠ [] ∧ hasPfx pkg.dist.url "https://".data = true := by
  intro versions
  induction versions with
  | nil => intro pkg h; cases h
  | cons vd rest ih =>
    intro pkg h
    rw [show selectFirstHttps name (vd :: rest)
        = (if vd.2.url ≠ [] ∧ hasPfx vd.2.url "https://".data = true then
            .ok ⟨name, vd.1, vd.2⟩
          else selectFirstHttps name rest) from rfl] at h
    by_cases hc : vd.2.url ≠ [] ∧ hasPfx vd.2.url "https://".data = true
    · rw [if_pos hc] at h
      injection h with h2
      subst h2
      exact hc
    · rw [if_neg hc] at h
      exact ih h

theorem queryComposerRepository_ok {rw : GoStr → RepoResp}
    {baseURL name constraint : GoStr} {pkg : Package}
    (h : queryComposerRepository rw baseURL name constraint = .ok pkg) :
    pkg.dist.url ≠ [] ∧ hasPfx pkg.dist.url "https://".data = true := by
  unfold queryComposerRepository at h
  cases hr : rw (repoURLOf baseURL name) with
  | transportErr => rw [hr] at h; cases h
  | status code => rw [hr] at h; cases h
  | decodeErr => rw [hr] at h; cases h
  | ok versions =>
    rw [hr] at h
    exact selectFirstHttps_ok h

theorem assetLoop_ok {rw : GoStr → RepoResp} {name constraint : GoStr} :
    ∀ {repos : List Repository} {pkg : Package},
      assetLoop rw name constraint repos = .ok pkg →
      pkg.dist.url ≠ [] ∧ hasPfx pkg.dist.url "https://".data = true := by
  intro repos
  induction repos with
  | nil => intro pkg h; cases h
  | cons repo rest ih =>
    intro pkg h
    unfold assetLoop at h
    by_cases hc : (repo.rtype == "composer".data
        && goContains repo.url "asset-packagist.org".data) = true
    · rw [if_pos hc] at h
      cases hq : queryComposerRepository rw repo.url name constraint with
      | ok p2 =>
        rw [hq] at h
        injection h with h2
        subst h2
        exact queryComposerRepository_ok hq
      | error e =>
        rw [hq] at h
        exact ih h
    · rw [if_neg hc] at h
      exact ih h

theorem customLoop_ok {rw : GoStr → RepoResp} {name constraint : GoStr} :
    ∀ {repos : List Repository} {pkg : Package},
      customLoop rw name constraint repos = .ok pkg →
      pkg.dist.url ≠ [] ∧ hasPfx pkg.dist.url "https://".data = true := by
  intro repos
  induction repos with
  | nil => intro pkg h; exact queryComposerRepository_ok h
  | cons repo rest ih =>
    intro pkg h
    unfold customLoop at h
    by_cases hc : (repo.rtype == "composer".data
        && !(goContains repo.url "asset-packagist.org".data)) = true
    · rw [if_pos hc] at h
      cases hq : queryComposerRepository rw repo.url name constraint with
      | ok p2 =>
        rw [hq] at h
        injection h with h2
        subst h2
        exact queryComposerRepository_ok hq
      | error e =>
        rw [hq] at h
        exact ih h
    · rw [if_neg hc] at h
      exact ih h

theorem resolvePackage_ok {rw : GoStr → RepoResp} {name constraint : GoStr}
    {repos : List Repository} {pkg : Package}
    (h : resolvePackage rw name constraint repos = .ok pkg) :
    pkg.dist.url ≠ [] ∧ hasPfx pkg.dist.url "https://".data = true := by
  unfold resolvePackage at h
  by_cases ha : isAssetName name = true
  · rw [if_pos ha] at h
    exact assetLoop_ok h
  · rw [if_neg ha] at h
    exact customLoop_ok h

/-- **C9.**  Every `Package` returned by a repository query, by
`resolvePackage`, or contained in the output of `ResolvePackagesWithRepos`
has a non-empty `https://`-prefixed dist URL. -/
theorem claim_C9_https_invariant (rw : GoStr → RepoResp) :
    (∀ (baseURL name constraint : GoStr) (pkg : Package),
      queryComposerRepository rw baseURL name constraint = .ok pkg →
      pkg.dist.url ≠ [] ∧ hasPfx pkg.dist.url "https://".data = true)
    ∧ (∀ (name constraint : GoStr) (repos : List Repository) (pkg : Package),
      resolvePackage rw name constraint repos = .ok pkg →
      pkg.dist.url ≠ [] ∧ hasPfx pkg.dist.url "https://".data = true)
    ∧ (∀ (require : List (GoStr × GoStr)) (repos : List Repository) (pkg : Package),
      pkg ∈ (ResolvePackagesWithRepos rw require repos).1 →
      pkg.dist.url ≠ [] ∧ hasPfx pkg.dist.url "https://".data = true) := by
  refine ⟨fun _ _ _ _ h => queryComposerRepository_ok h,
    fun _ _ _ _ h => resolvePackage_ok h, ?_⟩
  intro require repos pkg hmem
  unfold ResolvePackagesWithRepos at hmem
  rw [resolveRun_foldl rw repos require [] []] at hmem
  simp only [List.nil_append] at hmem
  obtain ⟨nc, hnc, hsome⟩ := List.mem_filterMap.mp hmem
  by_cases hplat : isPlatformRequirement nc.1 = true
  · rw [if_pos hplat] at hsome
    cases hsome
  · rw [if_neg hplat] at hsome
    cases hres : resolvePackage rw nc.1 nc.2 repos with
    | error e => rw [hres] at hsome; cases hsome
    | ok p2 =>
      rw [hres] at hsome
      have : p2 = pkg := by
        simpa [Except.toOption] using hsome
      subst this
      exact resolvePackage_ok hres

def c9world : GoStr → RepoResp :=
  fun _ => .ok [("1.0.0".data, ⟨"https://x/y.zip".data, "zip".data, [], []⟩)]

/-- Witness for C9 at a concrete resolution. -/
theorem claim_C9_https_invariant_witness :
    (⟨"acme/widget".data, "1.0.0".data,
        ⟨"https://x/y.zip".data, "zip".data, [], []⟩⟩ : Package).dist.url ≠ [] ∧
      hasPfx (⟨"acme/widget".data, "1.0.0".data,
        ⟨"https://x/y.zip".data, "zip".data, [], []⟩⟩ : Package).dist.url
        "https://".data = true :=
  (claim_C9_https_invariant c9world).2.2
    [("acme/widget".data, "^1.0".data)] []
    ⟨"acme/widget".data, "1.0.0".data, ⟨"https://x/y.zip".data, "zip".data, [], []⟩⟩
    (by decide)

def c6dist1 : PkgDist := ⟨"https://a/1.zip".data, "zip".data, [], []⟩

def c6dist2 : PkgDist := ⟨"https://a/2.zip".data, "zip".data, [], []⟩

def c6doc : List (GoStr × PkgDist) := [("1.0.0".data, c6dist1), ("2.0.0".data, c6dist2)]

/-- Counterexample to C6 as stated: the decoded `versions` value is a Go map,
whose iteration order is unspecified and randomised.  Two iteration orders of
the same document (`c6doc` and its reverse are permutations of each other,
hence the same map) make `queryComposerRepository` select different versions,
so "resolving the same document twice selects the same version" is false. -/
theorem claim_C6_counterexample :
    c6doc.Perm c6doc.reverse
    ∧ queryComposerRepository (fun _ => .ok c6doc) "https://packagist.org".data
        "acme/widget".data "^1.0".data
      = .ok ⟨"acme/widget".data, "1.0.0".data, c6dist1⟩
    ∧ queryComposerRepository (fun _ => .ok c6doc.reverse) "https://packagist.org".data
        "acme/widget".data "^1.0".data
      = .ok ⟨"acme/widget".data, "2.0.0".data, c6dist2⟩ := by
  refine ⟨?_, rfl, rfl⟩
  show List.Perm _ _
  decide

theorem selectFirstHttps_eq_find (name : GoStr) :
    ∀ versions, selectFirstHttps name versions
      = (match versions.find? (fun vd =>
            decide (vd.2.url ≠ []) && hasPfx vd.2.url "https://".data) with
         | some vd => .ok ⟨name, vd.1, vd.2⟩
         | none => .error (.noHttpsDist name)) := by
  intro versions
  induction versions with
  | nil => rfl
  | cons vd rest ih =>
    rw [List.find?_cons]
    by_cases hc : vd.2.url ≠ [] ∧ hasPfx vd.2.url "https://".data = true
    · have hb : (decide (vd.2.url ≠ []) && hasPfx vd.2.url "https://".data) = true := by
        simp [hc.1, hc.2]
      rw [hb]
      show (if vd.2.url ≠ [] ∧ hasPfx vd.2.url "https://".data = true then
          Except.ok ⟨name, vd.1, vd.2⟩ else selectFirstHttps name rest) = _
      rw [if_pos hc]
    · have hb : (decide (vd.2.url ≠ []) && hasPfx vd.2.url "https://".data) = false := by
        cases hu : decide (vd.2.url ≠ []) <;> cases hp : hasPfx vd.2.url "https://".data
          <;> simp_all
      rw [hb]
      show (if vd.2.url ≠ [] ∧ hasPfx vd.2.url "https://".data = true then
          Except.ok ⟨name, vd.1, vd.2⟩ else selectFirstHttps name rest) = _
      rw [if_neg hc]
      exact ih

/-- **C6 (amended).**  The resolver selects the first version *in the decoded
map's iteration order* whose descriptor has a non-empty `https://` download
URL, with no semantic-version ranking — `List.find?` over the iteration
order.  Because Go's map iteration order is unspecified (and randomised),
the choice is deterministic only for a fixed iteration order; resolving the
same document twice may select different versions. -/
theorem claim_C6_first_qualifying (rw : GoStr → RepoResp)
    (baseURL name constraint : GoStr) (versions : List (GoStr × PkgDist))
    (hok : rw (repoURLOf baseURL name) = .ok versions) :
    queryComposerRepository rw baseURL name constraint
      = (match versions.find? (fun vd =>
            decide (vd.2.url ≠ []) && hasPfx vd.2.url "https://".data) with
         | some vd => .ok ⟨name, vd.1, vd.2⟩
         | none => .error (.noHttpsDist name)) := by
  unfold queryComposerRepository
  rw [hok]
  exact selectFirstHttps_eq_find name versions

/-- Witness for the amended C6. -/
theorem claim_C6_first_qualifying_witness :
    queryComposerRepository (fun _ => .ok c6doc) "https://packagist.org".data
        "acme/widget".data "^1.0".data
      = (match c6doc.find? (fun vd =>
            decide (vd.2.url ≠ []) && hasPfx vd.2.url "https://".data) with
         | some vd => .ok ⟨"acme/widget".data, vd.1, vd.2⟩
         | none => .error (.noHttpsDist "acme/widget".data)) :=
  claim_C6_first_qualifying (fun _ => .ok c6doc) "https://packagist.org".data
    "acme/widget".data "^1.0".data c6doc rfl

/-! ## Configuration validation (src/internal/config) -/

/-- Embeds `LogConfig` (types.go:27-33). -/
structure LogConfig where
  level : GoStr
  format : GoStr
  showSource : Bool
  fileEnabled : Bool
  filePath : GoStr
deriving DecidableEq

/-- Embeds `PkgmgrConfig` (types.go:35-37). -/
structure PkgmgrConfig where
  maxConcurrentDownloads : Int
deriving DecidableEq

/-- Embeds `Config` (types.go:39-42). -/
structure Config where
  log : LogConfig
  pkgmgr : PkgmgrConfig
deriving DecidableEq

/-- Embeds `IsValidLogLevel` (types.go:60-67). -/
def IsValidLogLevel (level : GoStr) : Bool :=
  level == "debug".data || level == "info".data
    || level == "warn".data || level == "error".data

/-- Embeds `IsValidLogFormat` (types.go:73-80). -/
def IsValidLogFormat (format : GoStr) : Bool :=
  format == "text".data || format == "json".data || format == "logfmt".data

/-- Embeds `ValidMaxConcurrentDownloads` (types.go:82-84): min 1, max 50. -/
def ValidMaxConcurrentDownloads (n : Int) : Bool :=
  decide (n ≥ 1) && decide (n ≤ 50)

inductive ConfigErr
  | invalidLogLevel
  | invalidLogFormat
deriving DecidableEq

/-- Embeds `validate` (load.go:86-98): it checks the log level and the log
format — and nothing else. -/
def validate (cfg : Config) : Option ConfigErr :=
  if IsValidLogLevel cfg.log.level = false then some .invalidLogLevel
  else if IsValidLogFormat cfg.log.format = false then some .invalidLogFormat
  else none

/-- Embeds `defaultConfig` (load.go:17-27): only `Log` is populated;
`Pkgmgr` keeps Go's zero value, so `MaxConcurrentDownloads` defaults to 0. -/
def defaultConfig : Config :=
  ⟨⟨"info".data, "text".data, true, false, []⟩, ⟨0⟩⟩

/-- **C8 (refuted — code bug).**  `validate` accepts configurations whose
download concurrency limit lies outside `[1, 50]`: the written default
config itself carries `MaxConcurrentDownloads = 0` and passes validation,
and `validate` accepts every value of the field (the dead helper
`ValidMaxConcurrentDownloads` is never called), so the Downloader's
semaphore can be created with any capacity, including 0. -/
theorem claim_C8_concurrency_unvalidated :
    validate defaultConfig = none
    ∧ ValidMaxConcurrentDownloads defaultConfig.pkgmgr.maxConcurrentDownloads = false
    ∧ (∀ n : Int, validate ⟨defaultConfig.log, ⟨n⟩⟩ = none) := by
  refine ⟨by decide, by decide, ?_⟩
  intro n
  rfl

def c1World : XWorld :=
  { mkdirParentOk := true, mkdirTempOk := true,
    tempDirName := "vendor/acme/widget.tmp1".data, tempContent := 5,
    zipOpen := fun _ => some [], entryFx := fun _ => allFxOk,
    backupRenameOk := true, finalRenameOk := false,
    restoreRenameOk := true, removeBackupOk := true }

def c1Pkg : Package :=
  ⟨"acme/widget".data, "1.0.0".data, ⟨"https://x/w.zip".data, "zip".data, [], []⟩⟩

/-- Witness for C1: final rename fails, restore succeeds — the original
vendor content (id 7) is back in place and the move error is surfaced. -/
theorem claim_C1_atomic_swap_witness :
    (extractPackage c1World c1Pkg "/cache".data "vendor".data
        ⟨some 7, none, none⟩).2.1 = some XErr.moveTempDir ∧
      (extractPackage c1World c1Pkg "/cache".data "vendor".data
        ⟨some 7, none, none⟩).1.vendor = some 7 := by
  have h := claim_C1_atomic_swap c1World c1Pkg "/cache".data "vendor".data
    ⟨some 7, none, none⟩ 7 [] rfl rfl rfl rfl rfl rfl
  exact ⟨(h.1 rfl).1, ((h.1 rfl).2.1 rfl).1⟩
